import Mathlib

/-!
Verification of the merkle-trie-shenanigans repository.

Part 1 models `TrieBitVector` and the pluggable insert/merge metadata
strategies from `src/include/mtt/trie/bitvector.h`.

Part 2 models the concurrent Merkle trie (`AtomicMerkleTrie` /
`RecyclingTrie`), whose implementation files are not part of this tree;
those definitions are modelled from the specification (`spec.md`), as
documented on each definition.
-/

namespace MTT

/-! ### TrieBitVector (src/include/mtt/trie/bitvector.h)

The 16-bit bitvector is embedded as a natural number below 2^16.
`__builtin_ffs(bv) - 1` (the index of the lowest set bit, wrapping to 255
on the empty vector because the result is stored in an unsigned char) is
embedded as `bvLowest`; `__builtin_popcount` as `bvSize`. -/

/-- `TrieBitVector::add`: `bv |= 1 << branch_bits`, truncated to 16 bits
by the `uint16_t` store. -/
def bvAdd (branch : Nat) (bv : Nat) : Nat :=
  (bv ||| (1 <<< branch)) % 65536

/-- Fuelled lowest-set-bit scan: `lowAux f n` is the index of the lowest
set bit of `n` for `n ≠ 0`, `n < 2 ^ f`. -/
def lowAux : Nat → Nat → Nat
  | 0, _ => 255
  | f + 1, n => if n % 2 = 1 then 0 else lowAux f (n / 2) + 1

/-- `TrieBitVector::lowest`: `__builtin_ffs(bv) - 1`. -/
def bvLowest (bv : Nat) : Nat :=
  if bv = 0 then 255 else lowAux 16 bv

/-- `TrieBitVector::pop`: reads the lowest set bit index and subtracts
`1 << loc`; returns `(loc, new state)`. -/
def bvPop (bv : Nat) : Nat × Nat :=
  (bvLowest bv, bv - (1 <<< bvLowest bv))

/-- Fuelled population count. -/
def popcA : Nat → Nat → Nat
  | 0, _ => 0
  | f + 1, n => popcA f (n / 2) + n % 2

/-- `TrieBitVector::size`: `__builtin_popcount(bv)` for a 16-bit state. -/
def bvSize (bv : Nat) : Nat := popcA 16 bv

/-- `TrieBitVector::contains`: `((1 << loc) & bv) != 0`. -/
def bvContains (loc : Nat) (bv : Nat) : Bool :=
  ((1 <<< loc) &&& bv) != 0

/-- `TrieBitVector::empty`: `bv == 0`. -/
def bvEmpty (bv : Nat) : Bool := bv == 0

/-- `TrieBitVector::needed_bytes`: the constant 2. -/
def bvNeededBytes : Nat := 2

/-- `TrieBitVector::write_to` / `write`.  Modelled from the spec: the
endian helper `utils::write_unsigned_big_endian` is not part of this
tree; the spec fixes the encoding as exactly 2 bytes, big-endian. -/
def bvWriteTo (bv : Nat) : List Nat :=
  [bv / 256, bv % 256]

/-! #### Lowest-set-bit arithmetic -/

theorem lowAux_decomp : ∀ (f n : Nat), n ≠ 0 → n < 2 ^ f →
    ∃ a, n = 2 ^ lowAux f n * (2 * a + 1) := by
  intro f
  induction f with
  | zero => intro n h0 h1; omega
  | succ f ih =>
    intro n h0 h1
    by_cases hodd : n % 2 = 1
    · refine ⟨n / 2, ?_⟩
      have hstep : lowAux (f + 1) n = 0 := by
        simp only [lowAux]
        rw [if_pos hodd]
      rw [hstep, pow_zero, one_mul]
      omega
    · have hhalf : n / 2 ≠ 0 := by omega
      have hlt : n / 2 < 2 ^ f := by
        have : 2 ^ (f + 1) = 2 ^ f * 2 := by ring
        omega
      obtain ⟨a, ha⟩ := ih (n / 2) hhalf hlt
      refine ⟨a, ?_⟩
      have hstep : lowAux (f + 1) n = lowAux f (n / 2) + 1 := by
        simp only [lowAux]
        rw [if_neg hodd]
      have h2 : n = 2 * (n / 2) := by omega
      rw [hstep, pow_succ]
      calc n = 2 * (n / 2) := h2
        _ = 2 * (2 ^ lowAux f (n / 2) * (2 * a + 1)) := by rw [← ha]
        _ = 2 ^ lowAux f (n / 2) * 2 * (2 * a + 1) := by ring

theorem bvLowest_decomp (bv : Nat) (h0 : bv ≠ 0) (h1 : bv < 65536) :
    ∃ a, bv = 2 ^ bvLowest bv * (2 * a + 1) := by
  have : (65536 : Nat) = 2 ^ 16 := by norm_num
  rw [bvLowest, if_neg h0]
  exact lowAux_decomp 16 bv h0 (by omega)

theorem testBit_odd_shift (l a j : Nat) :
    (2 ^ l * (2 * a + 1)).testBit j =
      (if j < l then false else if j = l then true else a.testBit (j - l - 1)) := by
  rw [Nat.testBit_mul_pow_two]
  rcases Nat.lt_trichotomy j l with h | h | h
  · simp [h, Nat.not_le_of_lt h]
  · subst h
    simp
    omega
  · have hge : l ≤ j := le_of_lt h
    rw [if_neg (by omega : ¬ j < l), if_neg (by omega : ¬ j = l)]
    have hsub : j - l = (j - l - 1) + 1 := by omega
    rw [hsub, Nat.testBit_add_one]
    have h2 : (2 * a + 1) / 2 = a := by omega
    rw [h2]
    simp [hge]

theorem testBit_even_shift (l a j : Nat) :
    (2 ^ (l + 1) * a).testBit j =
      (if j ≤ l then false else a.testBit (j - l - 1)) := by
  rw [Nat.testBit_mul_pow_two]
  rcases le_or_lt j l with h | h
  · rw [if_pos h]
    have hd : (decide (j ≥ l + 1)) = false := by
      simp
      omega
    rw [hd, Bool.false_and]
  · have hge : j ≥ l + 1 := h
    have hsub : j - (l + 1) = j - l - 1 := by omega
    rw [if_neg (by omega : ¬ j ≤ l), hsub]
    have hd : (decide (j ≥ l + 1)) = true := by
      simp
      omega
    rw [hd, Bool.true_and]

theorem popcA_pow_mul (k f a : Nat) (hk : k ≤ f) :
    popcA f (2 ^ k * a) = popcA (f - k) a := by
  induction k generalizing f with
  | zero => simp
  | succ k ih =>
    cases f with
    | zero => omega
    | succ f =>
      have h1 : 2 ^ (k + 1) * a = 2 * (2 ^ k * a) := by ring
      rw [h1]
      show popcA f (2 * (2 ^ k * a) / 2) + 2 * (2 ^ k * a) % 2 = _
      rw [Nat.mul_div_cancel_left _ (by norm_num : (0:Nat) < 2), Nat.mul_mod_right]
      rw [ih f (by omega)]
      simp

theorem popcA_odd (f a : Nat) : popcA (f + 1) (2 * a + 1) = popcA f a + 1 := by
  show popcA f ((2 * a + 1) / 2) + (2 * a + 1) % 2 = _
  have h1 : (2 * a + 1) / 2 = a := by omega
  have h2 : (2 * a + 1) % 2 = 1 := by omega
  rw [h1, h2]

/-- C8: for every non-empty 16-bit `TrieBitVector`, `pop()` returns the
index (below 16) of the lowest set bit — the same value `lowest()`
reads — and leaves the state equal to the prior state with exactly that
bit cleared, so `size()` decreases by one. -/
theorem bv_pop_spec (bv : Nat) (hlt : bv < 65536) (hne : bv ≠ 0) :
    (bvPop bv).1 = bvLowest bv ∧
    (bvPop bv).1 < 16 ∧
    bv.testBit (bvPop bv).1 = true ∧
    (∀ j, j < (bvPop bv).1 → bv.testBit j = false) ∧
    (∀ j, (bvPop bv).2.testBit j = (bv.testBit j && !(j == (bvPop bv).1))) ∧
    bvSize (bvPop bv).2 + 1 = bvSize bv := by
  obtain ⟨a, ha⟩ := bvLowest_decomp bv hne hlt
  set l := bvLowest bv with hldef
  have hfst : (bvPop bv).1 = l := rfl
  have hl16 : l < 16 := by
    by_contra hge
    have h1 : 2 ^ 16 ≤ 2 ^ l := Nat.pow_le_pow_right (by norm_num) (by omega)
    have h2 : 2 ^ l ≤ 2 ^ l * (2 * a + 1) := Nat.le_mul_of_pos_right _ (by omega)
    omega
  have hsnd : (bvPop bv).2 = 2 ^ (l + 1) * a := by
    show bv - (1 <<< l) = 2 ^ (l + 1) * a
    rw [Nat.shiftLeft_eq, one_mul, ha]
    have : 2 ^ l * (2 * a + 1) = 2 ^ (l + 1) * a + 2 ^ l := by ring
    omega
  refine ⟨hfst, by rw [hfst]; exact hl16, ?_, ?_, ?_, ?_⟩
  · rw [hfst, ha, testBit_odd_shift]
    simp
  · intro j hj
    rw [hfst] at hj
    rw [ha, testBit_odd_shift]
    simp [hj]
  · intro j
    rw [hsnd, hfst]
    rw [ha, testBit_odd_shift, testBit_even_shift]
    rcases Nat.lt_trichotomy j l with h | h | h
    · simp [h, le_of_lt h]
    · subst h
      simp
    · have h1 : ¬ j ≤ l := by omega
      have h2 : ¬ j = l := by omega
      have h3 : ¬ j < l := by omega
      have hb : (j == l) = false := by
        rw [beq_eq_false_iff_ne]
        exact h2
      rw [if_neg h1, if_neg h3, if_neg h2, hb]
      simp
  · rw [hsnd, bvSize, bvSize, ha]
    rw [popcA_pow_mul (l + 1) 16 a (by omega), popcA_pow_mul l 16 (2 * a + 1) (by omega)]
    have h16 : 16 - l = (16 - l - 1) + 1 := by omega
    rw [h16, popcA_odd]
    have : 16 - (l + 1) = 16 - l - 1 := by omega
    rw [this]

/-- C8 witness at `bv = 0b10100`. -/
theorem bv_pop_spec_witness :
    (20 : Nat) < 65536 ∧ (20 : Nat) ≠ 0 ∧ (bvPop 20).1 = 2 ∧ (bvPop 20).2 = 16 := by
  refine ⟨by norm_num, by norm_num, ?_, ?_⟩
  · have h := bv_pop_spec 20 (by norm_num) (by norm_num)
    exact h.1.trans (by decide)
  · have h := bv_pop_spec 20 (by norm_num) (by norm_num)
    decide

theorem bvContains_testBit (b bv : Nat) : bvContains b bv = bv.testBit b := by
  rw [bvContains, Nat.shiftLeft_eq, one_mul]
  cases h : bv.testBit b with
  | false =>
    have hz : 2 ^ b &&& bv = 0 := by
      apply Nat.eq_of_testBit_eq
      intro j
      rw [Nat.testBit_and, Nat.zero_testBit]
      rcases eq_or_ne b j with rfl | hne
      · simp [h]
      · simp [Nat.testBit_two_pow_of_ne hne]
    rw [hz]
    decide
  | true =>
    have hbit : (2 ^ b &&& bv).testBit b = true := by
      rw [Nat.testBit_and, h, Nat.testBit_two_pow_self]
      rfl
    have hnz : 2 ^ b &&& bv ≠ 0 := by
      intro h0
      rw [h0, Nat.zero_testBit] at hbit
      cases hbit
    simp [hnz]

/-- C9: serializing a `TrieBitVector` produces exactly 2 bytes
(`needed_bytes()` = 2), holding the 16-bit presence set in big-endian
byte order: folding the bytes back big-endian recovers the state, and bit
`b` of the state is set iff branch `b` is present (`contains`),
`add(b)` making branch `b` present. -/
theorem bv_write_spec (bv : Nat) (hlt : bv < 65536) :
    (bvWriteTo bv).length = bvNeededBytes ∧
    (∀ byte ∈ bvWriteTo bv, byte < 256) ∧
    (bvWriteTo bv).foldl (fun acc byte => acc * 256 + byte) 0 = bv ∧
    (∀ b, b < 16 → bvContains b bv = bv.testBit b) ∧
    (∀ b, b < 16 → bvContains b (bvAdd b bv) = true) := by
  refine ⟨rfl, ?_, ?_, ?_, ?_⟩
  · intro byte hb
    simp only [bvWriteTo, List.mem_cons, List.mem_singleton] at hb
    rcases hb with h | h | h
    · subst h; omega
    · subst h; omega
    · cases h
  · show (0 * 256 + bv / 256) * 256 + bv % 256 = bv
    omega
  · intro b _
    exact bvContains_testBit b bv
  · intro b hb
    rw [bvContains_testBit, bvAdd, Nat.shiftLeft_eq, one_mul]
    have hmod : (bv ||| 2 ^ b) % 65536 = bv ||| 2 ^ b := by
      apply Nat.mod_eq_of_lt
      have h1 : bv ||| 2 ^ b < 2 ^ 16 :=
        Nat.or_lt_two_pow (by omega) (Nat.pow_lt_pow_right (by norm_num) hb)
      omega
    rw [hmod, Nat.testBit_or, Nat.testBit_two_pow_self]
    simp

/-- C9 witness at `bv = 0xABCD` (which serializes to `[0xAB, 0xCD]`). -/
theorem bv_write_spec_witness :
    (0xABCD : Nat) < 65536 ∧
    ((bvWriteTo 0xABCD).length = bvNeededBytes ∧
      (∀ byte ∈ bvWriteTo 0xABCD, byte < 256) ∧
      (bvWriteTo 0xABCD).foldl (fun acc byte => acc * 256 + byte) 0 = 0xABCD ∧
      (∀ b, b < 16 → bvContains b 0xABCD = (0xABCD : Nat).testBit b) ∧
      (∀ b, b < 16 → bvContains b (bvAdd b 0xABCD) = true)) :=
  ⟨by norm_num, bv_write_spec 0xABCD (by norm_num)⟩

/-! ### Metadata insert/merge strategies (src/include/mtt/trie/bitvector.h)

Metadata cells are embedded as integers (the `OrderbookMetadata` /
`SizeMixin` style aggregates are a single additive counter).  A mutable
atomic cell is threaded explicitly: an operation on a cell returns the
new cell contents together with its result. -/

/-- Modelled from the spec: `AtomicMetadataType::unsafe_substitute` (an
operation of the metadata-cell concept whose implementations are not in
this tree) stores the new metadata into the cell and returns the
previously stored value.  Result: (new cell contents, returned old). -/
def substituteCell (cell newVal : Int) : Int × Int :=
  (newVal, cell)

/-- `OverwriteInsertFn::metadata_insert`: builds fresh metadata from the
new value, substitutes it into the leaf's metadata cell and returns
`new - old`.  `M` is the `Metadata(Value)` constructor.  Result:
(new cell contents, returned delta). -/
def metadata_insert {V : Type} (M : V → Int) (original_metadata : Int)
    (new_value : V) : Int × Int :=
  let new_metadata : Int := M new_value
  let metadata_delta := new_metadata
  let sub := substituteCell original_metadata new_metadata
  (sub.1, metadata_delta - sub.2)

/-- `OverwriteMergeFn::metadata_merge`: loads the other cell, loads the
main cell, stores the other's loaded value into the main cell, and
returns `other - main` (the loaded other value minus the original main
value).  Result: (new main cell contents, returned delta). -/
def metadata_merge (main_metadata other_metadata : Int) : Int × Int :=
  let other_metadata_loaded := other_metadata
  let original_main_metadata := main_metadata
  let newMain := other_metadata_loaded
  (newMain, other_metadata_loaded - original_main_metadata)

/-- C6: `metadata_insert(original, V)` replaces the stored leaf metadata
with the metadata constructed from `V` and returns exactly the delta
new − old; adding that delta to any ancestor aggregate replaces the old
leaf contribution with the new one. -/
theorem metadata_insert_spec {V : Type} (M : V → Int) (orig : Int) (v : V) :
    (metadata_insert M orig v).1 = M v ∧
    (metadata_insert M orig v).2 = M v - orig ∧
    (∀ ancestor : Int, ancestor + (metadata_insert M orig v).2
        = ancestor - orig + M v) := by
  refine ⟨rfl, rfl, ?_⟩
  intro ancestor
  show ancestor + (M v - orig) = ancestor - orig + M v
  ring

/-- C10: `metadata_merge(main, other)` leaves the main cell holding the
value loaded from the other cell (not the delta), and returns
other − main, so the returned delta plus the original main value equals
the new main value. -/
theorem metadata_merge_spec (main other : Int) :
    (metadata_merge main other).1 = other ∧
    (metadata_merge main other).2 = other - main ∧
    main + (metadata_merge main other).2 = (metadata_merge main other).1 := by
  refine ⟨rfl, rfl, ?_⟩
  show main + (other - main) = other
  ring

/-! ### Part 2: the concurrent Merkle trie

The trie implementation (`mtt/trie/atomic_merkle_trie.h`,
`mtt/trie/recycling_impl/trie.h`) is not part of this tree; the model
below is built from the specification.  Keys are fixed-width bit strings
read 4 bits at a time (branch factor 16), embedded as MSB-first nibble
lists; a trie over `W`-bit keys is a tree of nibble depth `d = W / 4`
(16 for the `UInt64Prefix` instantiation).  Each node carries the
spec's §3 data: children with their `BranchBitmap` (represented as a
branch-sorted association list, the bitmap being derivable), an
aggregated metadata counter (the `RecyclingMetadata` size aggregate:
number of leaves below the node), a cached hash and a dirty flag.  Leaf
values are opaque encodable data, embedded as `Nat`.  Path compression
is an allocation-level optimisation with no observable effect on the
spec's contract (canonical normalized state and hash determined by the
key/value set); the model materializes every node on a path
explicitly. -/

/-- A leaf record: optional stored value, leaf metadata, dirty flag,
cached hash. -/
structure LeafF (V : Type) where
  value : Option V
  md : Nat
  dirty : Bool
  cached : Option Nat
deriving DecidableEq

/-- An interior record: branch-sorted children, aggregated metadata,
dirty flag, cached hash. -/
structure NodeF (C : Type) where
  children : List (Nat × C)
  md : Nat
  dirty : Bool
  cached : Option Nat
deriving DecidableEq

/-- Modelled from the spec: a trie node governing a domain whose leaves
lie `d` nibbles below it. -/
@[reducible] def TrieN (V : Type) : Nat → Type
  | 0 => LeafF V
  | d + 1 => NodeF (TrieN V d)

def trieDecEq (V : Type) [DecidableEq V] : (d : Nat) → DecidableEq (TrieN V d)
  | 0 => inferInstanceAs (DecidableEq (LeafF V))
  | d + 1 =>
    have : DecidableEq (TrieN V d) := trieDecEq V d
    inferInstanceAs (DecidableEq (NodeF (TrieN V d)))

instance instTrieDecEq (V : Type) [DecidableEq V] (d : Nat) :
    DecidableEq (TrieN V d) := trieDecEq V d

/-- A key/value pair: MSB-first nibble path and stored value. -/
abbrev KV := List Nat × Nat

/-- Sorted-association-list read at branch `b`. -/
def getA {α : Type} (b : Nat) : List (Nat × α) → Option α
  | [] => none
  | x :: l => if x.1 = b then some x.2 else getA b l

/-- Sorted-association-list write at branch `b` (insert or replace,
keeping branches ascending). -/
def setA {α : Type} (b : Nat) (c : α) : List (Nat × α) → List (Nat × α)
  | [] => [(b, c)]
  | x :: l =>
    if b < x.1 then (b, c) :: x :: l
    else if b = x.1 then (b, c) :: l
    else x :: setA b c l

/-- A freshly materialized node: no value, no children, zero metadata,
hash-dirty. -/
def emptyN : (d : Nat) → TrieN Nat d
  | 0 => ⟨none, 0, true, none⟩
  | _ + 1 => ⟨[], 0, true, none⟩

/-- All key/value pairs below a node, keys relative to the node, in
ascending key order whenever the children lists are branch-sorted. -/
def leavesN : (d : Nat) → TrieN Nat d → List KV
  | 0, t =>
    match t.value with
    | none => []
    | some v => [([], v)]
  | d + 1, t =>
    t.children.flatMap
      (fun bc => (leavesN d bc.2).map (fun kv => (bc.1 :: kv.1, kv.2)))

/-- Structural emptiness (prunable: no value and no children). -/
def isEmptyB : (d : Nat) → TrieN Nat d → Bool
  | 0, t => t.value.isNone
  | _ + 1, t => t.children.isEmpty

/-- Metadata of a node (leaf count aggregate). -/
def mdN : (d : Nat) → TrieN Nat d → Nat
  | 0, t => t.md
  | _ + 1, t => t.md

/-- Dirty flag of a node. -/
def dirtyN : (d : Nat) → TrieN Nat d → Bool
  | 0, t => t.dirty
  | _ + 1, t => t.dirty

/-- Cached hash of a node. -/
def cachedN : (d : Nat) → TrieN Nat d → Option Nat
  | 0, t => t.cached
  | _ + 1, t => t.cached

/-! #### Content hash

The fixed content-addressing hash is idealized as a deterministic
combination of the hash inputs the spec lists: the node's
`BranchBitmap` serialized through `bvWriteTo`, each present child's
hash in ascending branch order, and the value/metadata bytes for
terminal nodes. -/

def mix (a b : Nat) : Nat := (a + b) * (a + b + 1) / 2 + b

def hcombine (l : List Nat) : Nat := l.foldl mix 7

def encO : Option Nat → Nat
  | none => 0
  | some v => v + 1

def leafHash (v : Option Nat) (md : Nat) : Nat := hcombine [0, encO v, md]

/-- The `BranchBitmap` of a children list, built through
`TrieBitVector::add`. -/
def bitmapOf {α : Type} (children : List (Nat × α)) : Nat :=
  children.foldl (fun acc bc => bvAdd bc.1 acc) 0

def nodeHash (bm : Nat) (hs : List Nat) : Nat :=
  hcombine (1 :: (bvWriteTo bm ++ hs))

/-- The mathematical hash of a node's current content (what a full
recomputation produces; caches and flags are not hash inputs). -/
def computeHashN : (d : Nat) → TrieN Nat d → Nat
  | 0, t => leafHash t.value t.md
  | d + 1, t =>
    nodeHash (bitmapOf t.children) (t.children.map (fun bc => computeHashN d bc.2))

/-! #### Mutating operations -/

/-- Modelled from the spec: `insert` with the `OverwriteInsertFn`
strategy.  Descends along the key, materializing missing nodes, stores
the value at the leaf (overwrite), and adds the returned metadata delta
(`new − old`, computed by `metadata_insert` on the leaf cell) to every
node on the path, marking the path hash-dirty.  Returns the new node
and the delta propagated to the caller. -/
def insN : (d : Nat) → List Nat → Nat → TrieN Nat d → TrieN Nat d × Nat
  | 0, _, v, t => (⟨some v, 1, true, t.cached⟩, 1 - t.md)
  | _ + 1, [], _, t => (t, 0)
  | d + 1, b :: r, v, t =>
    let c := (getA b t.children).getD (emptyN d)
    let p := insN d r v c
    (⟨setA b p.1 t.children, t.md + p.2, true, t.cached⟩, p.2)

/-- Modelled from the spec: `delete_value`.  Removes the leaf if
present, subtracting the leaf metadata from every node on the path and
marking it dirty; deleting an absent key is a zero-delta no-op.  The
emptied nodes are left in place (pruning is deferred to
normalization).  Returns the new node and the removed leaf count. -/
def delN : (d : Nat) → List Nat → TrieN Nat d → TrieN Nat d × Nat
  | 0, _, t =>
    match t.value with
    | some _ => (⟨none, 0, true, t.cached⟩, 1)
    | none => (t, 0)
  | _ + 1, [], t => (t, 0)
  | d + 1, b :: r, t =>
    match getA b t.children with
    | none => (t, 0)
    | some c =>
      let p := delN d r c
      if p.2 = 0 then (t, 0)
      else (⟨setA b p.1 t.children, t.md - p.2, true, t.cached⟩, p.2)

/-- Modelled from the spec: `get_subnode_ref_and_invalidate_hash` /
`get_or_create`.  Walks the nibble path below the node, materializing
missing intermediate nodes, and marks the resulting node and every
ancestor on the path hash-dirty.  The state after the call; the
returned reference is the node now found at the path (`plookup`). -/
def getSubN : (d : Nat) → List Nat → TrieN Nat d → TrieN Nat d
  | 0, _, t => ⟨t.value, t.md, true, t.cached⟩
  | _ + 1, [], t => ⟨t.children, t.md, true, t.cached⟩
  | d + 1, b :: r, t =>
    let c := (getA b t.children).getD (emptyN d)
    ⟨setA b (getSubN d r c) t.children, t.md, true, t.cached⟩

/-- A node packaged with its depth, for depth-erased lookups. -/
def PTrie : Type := Σ d : Nat, TrieN Nat d

/-- The child of a packaged node at branch `b`. -/
def childOf (b : Nat) : PTrie → Option PTrie
  | ⟨0, _⟩ => none
  | ⟨d + 1, t⟩ => (getA b (NodeF.children t)).map (fun c => ⟨d, c⟩)

/-- Resolve a nibble path below a packaged node. -/
def plookup : List Nat → PTrie → Option PTrie
  | [], x => some x
  | b :: r, x => (childOf b x).bind (plookup r)

/-! #### Normalization -/

/-- Modelled from the spec: phase 1 of `hash_and_normalize` — the
bottom-up prune pass removing empty, non-root nodes. -/
def pruneN : (d : Nat) → TrieN Nat d → TrieN Nat d
  | 0, t => t
  | d + 1, t =>
    ⟨t.children.filterMap
        (fun bc =>
          let c := pruneN d bc.2
          if isEmptyB d c then none else some (bc.1, c)),
      t.md, t.dirty, t.cached⟩

/-- Modelled from the spec: phase 2 of `hash_and_normalize` — recompute
the cached hash of every node whose dirty flag is set (bottom-up, from
the children's hashes), clearing dirty flags as recomputed; a clean
node with a cache is returned untouched, with no recomputation below
it.  Returns the new node and its hash. -/
def hashPassN : (d : Nat) → TrieN Nat d → TrieN Nat d × Nat
  | 0, t =>
    match t.dirty, t.cached with
    | false, some h => (t, h)
    | _, _ =>
      let h := leafHash t.value t.md
      (⟨t.value, t.md, false, some h⟩, h)
  | d + 1, t =>
    match t.dirty, t.cached with
    | false, some h => (t, h)
    | _, _ =>
      let processed := t.children.map (fun bc => (bc.1, hashPassN d bc.2))
      let ch := processed.map (fun x => (x.1, x.2.1))
      let h := nodeHash (bitmapOf ch) (processed.map (fun x => x.2.2))
      (⟨ch, t.md, false, some h⟩, h)

/-- Modelled from the spec: `hash_and_normalize` — prune, then
recompute dirty hashes.  Returns the normalized trie and the root
hash. -/
def normN (d : Nat) (t : TrieN Nat d) : TrieN Nat d × Nat := hashPassN d (pruneN d t)

/-! #### Merge -/

/-- Modelled from the spec: per-child step of `merge_in`.  A branch
present only in the serial trie is grafted; a branch present in both is
merged recursively.  `mergeN` merges a serial subtree into a main
subtree: leaves collide through `OverwriteMergeFn` (`value_merge`
overwrites, `metadata_merge` stores the other cell's load and returns
other − main), every visited main node is marked hash-dirty, and each
step's returned metadata delta is added to the aggregate.  Returns the
merged node and the delta. -/
def mergeN : (d : Nat) → TrieN Nat d → TrieN Nat d → TrieN Nat d × Nat
  | 0, t, o =>
    match o.value with
    | none => (t, 0)
    | some v => (⟨some v, o.md, true, t.cached⟩, o.md - t.md)
  | d + 1, t, o =>
    let step :=
      o.children.foldl
        (fun (acc : List (Nat × TrieN Nat d) × Nat) bc =>
          match getA bc.1 acc.1 with
          | none => (setA bc.1 bc.2 acc.1, acc.2 + mdN d bc.2)
          | some c =>
            let p := mergeN d c bc.2
            (setA bc.1 p.1 acc.1, acc.2 + p.2))
        (t.children, 0)
    (⟨step.1, t.md + step.2, true, t.cached⟩, step.2)

/-! #### Well-formedness -/

/-- Strictly ascending branch list. -/
def chainB : List Nat → Bool
  | [] => true
  | [_] => true
  | a :: b :: r => decide (a < b) && chainB (b :: r)

def countO : Option Nat → Nat
  | none => 0
  | some _ => 1

/-- Fully normalized node: clean, correct cache, correct metadata,
branch-sorted nibble children, every child itself normalized and
non-empty. -/
def isNormalB : (d : Nat) → TrieN Nat d → Bool
  | 0, t =>
    !t.dirty && t.cached == some (leafHash t.value t.md) && t.md == countO t.value
  | d + 1, t =>
    !t.dirty && t.cached == some (computeHashN (d + 1) t) &&
    chainB (t.children.map (fun bc => bc.1)) &&
    (t.children.map (fun bc => bc.1)).all (fun b => decide (b < 16)) &&
    t.md == (leavesN (d + 1) t).length &&
    t.children.all (fun bc => isNormalB d bc.2 && !isEmptyB d bc.2)

/-- Reachable-state invariant: structurally well formed (sorted nibble
children, metadata equal to the leaf count), every child good, and
every clean node fully normalized. -/
def goodB : (d : Nat) → TrieN Nat d → Bool
  | 0, t =>
    t.md == countO t.value && (t.dirty || isNormalB 0 t)
  | d + 1, t =>
    chainB (t.children.map (fun bc => bc.1)) &&
    (t.children.map (fun bc => bc.1)).all (fun b => decide (b < 16)) &&
    t.md == (leavesN (d + 1) t).length &&
    t.children.all (fun bc => goodB d bc.2) &&
    (t.dirty || isNormalB (d + 1) t)

/-- No dirty flag anywhere in the subtree. -/
def noDirtyB : (d : Nat) → TrieN Nat d → Bool
  | 0, t => !t.dirty
  | d + 1, t => !t.dirty && t.children.all (fun bc => noDirtyB d bc.2)

/-- Nibble validity of a path. -/
def okNibs (p : List Nat) : Bool := p.all (fun x => decide (x < 16))

/-- A full-depth key for a trie of depth `d`. -/
def okKey (d : Nat) (k : List Nat) : Bool := k.length == d && okNibs k

/-! #### Canonical form -/

/-- The group of a sorted key/value list under branch `b`: the pairs
whose key starts with nibble `b`, with that nibble stripped. -/
def groupB (b : Nat) (l : List KV) : List KV :=
  l.filterMap
    (fun kv =>
      match kv.1 with
      | [] => none
      | x :: xs => if x = b then some (xs, kv.2) else none)

/-- The canonical normalized node holding a given sorted key/value
list: the shape `hash_and_normalize` leaves behind. -/
def buildC : (d : Nat) → List KV → TrieN Nat d
  | 0, l =>
    match l with
    | [] => ⟨none, 0, false, some (leafHash none 0)⟩
    | kv :: _ => ⟨some kv.2, l.length, false, some (leafHash (some kv.2) l.length)⟩
  | d + 1, l =>
    let ch := (List.range 16).filterMap
      (fun b =>
        let g := groupB b l
        if g.isEmpty then none else some (b, buildC d g))
    ⟨ch, l.length, false,
      some (nodeHash (bitmapOf ch) (ch.map (fun bc => computeHashN d bc.2)))⟩

/-! #### Key order -/

/-- MSB-first lexicographic strict order on nibble keys; on the nibble
decompositions of fixed-width integers this is exactly numeric order. -/
def keyLt : List Nat → List Nat → Bool
  | [], [] => false
  | [], _ :: _ => true
  | _ :: _, [] => false
  | a :: as, b :: bs => decide (a < b) || (decide (a = b) && keyLt as bs)

/-- Key/value lists in strictly ascending key order. -/
def sortedK (l : List KV) : Prop :=
  List.Pairwise (fun p q => keyLt p.1 q.1 = true) l

/-- Sorted insert-or-overwrite on a key/value list. -/
def insS (k : List Nat) (v : Nat) : List KV → List KV
  | [] => [(k, v)]
  | kv :: l =>
    if keyLt k kv.1 then (k, v) :: kv :: l
    else if k = kv.1 then (k, v) :: l
    else kv :: insS k v l

/-- Remove the pairs holding key `K`. -/
def eraseK (K : List Nat) (l : List KV) : List KV :=
  l.filter (fun kv => !(kv.1 == K))

/-- Right-biased union: fold the other list into the main list through
`insS`. -/
def unionL (L S : List KV) : List KV :=
  S.foldl (fun acc kv => insS kv.1 kv.2 acc) L

theorem keyLt_irrefl : ∀ k, keyLt k k = false
  | [] => rfl
  | a :: as => by
    rw [keyLt]
    simp [keyLt_irrefl as]

theorem keyLt_trans : ∀ a b c, keyLt a b = true → keyLt b c = true → keyLt a c = true
  | [], [], _, h, _ => by cases h
  | [], _ :: _, [], _, h => by cases h
  | [], _ :: _, _ :: _, _, _ => rfl
  | _ :: _, [], _, h, _ => by cases h
  | _ :: _, _ :: _, [], _, h => by cases h
  | a :: as, b :: bs, c :: cs, h1, h2 => by
    rw [keyLt] at h1 h2 ⊢
    simp only [Bool.or_eq_true, Bool.and_eq_true, decide_eq_true_eq] at h1 h2 ⊢
    rcases h1 with h1 | ⟨rfl, h1⟩
    · rcases h2 with h2 | ⟨rfl, h2⟩
      · exact Or.inl (Nat.lt_trans h1 h2)
      · exact Or.inl h1
    · rcases h2 with h2 | ⟨rfl, h2⟩
      · exact Or.inl h2
      · exact Or.inr ⟨rfl, keyLt_trans as bs cs h1 h2⟩

theorem keyLt_asymm : ∀ a b, keyLt a b = true → keyLt b a = false
  | [], [], h => by cases h
  | [], _ :: _, _ => rfl
  | _ :: _, [], h => by cases h
  | a :: as, b :: bs, h => by
    rw [keyLt] at h ⊢
    simp only [Bool.or_eq_true, Bool.and_eq_true, decide_eq_true_eq] at h ⊢
    simp only [Bool.or_eq_false_iff, Bool.and_eq_false_iff, decide_eq_false_iff_not]
    rcases h with h | ⟨rfl, h⟩
    · exact ⟨by omega, Or.inl (by omega)⟩
    · exact ⟨by omega, Or.inr (by simpa using keyLt_asymm as bs h)⟩

theorem keyLt_total : ∀ a b, keyLt a b = true ∨ a = b ∨ keyLt b a = true
  | [], [] => Or.inr (Or.inl rfl)
  | [], _ :: _ => Or.inl rfl
  | _ :: _, [] => Or.inr (Or.inr rfl)
  | a :: as, b :: bs => by
    rcases Nat.lt_trichotomy a b with h | h | h
    · left
      rw [keyLt]
      simp [h]
    · subst h
      rcases keyLt_total as bs with h | h | h
      · left
        rw [keyLt]
        simp [h]
      · subst h
        exact Or.inr (Or.inl rfl)
      · right; right
        rw [keyLt]
        simp [h]
    · right; right
      rw [keyLt]
      simp [h]

theorem keyLt_cons_same (b : Nat) (x y : List Nat) :
    keyLt (b :: x) (b :: y) = keyLt x y := by
  rw [keyLt]
  simp

theorem keyLt_cons_lt {b b' : Nat} (h : b < b') (x y : List Nat) :
    keyLt (b :: x) (b' :: y) = true := by
  rw [keyLt]
  simp [h]

theorem keyLt_ne : ∀ a b, keyLt a b = true → a ≠ b := by
  intro a b h heq
  subst heq
  rw [keyLt_irrefl] at h
  cases h

/-! #### Sorted-insert lemmas -/

theorem mem_insS (k : List Nat) (v : Nat) :
    ∀ l p, p ∈ insS k v l → p = (k, v) ∨ p ∈ l := by
  intro l
  induction l with
  | nil =>
    intro p hp
    rw [insS] at hp
    simp at hp
    exact Or.inl hp
  | cons kv l ih =>
    intro p hp
    rw [insS] at hp
    by_cases h1 : keyLt k kv.1
    · rw [if_pos h1] at hp
      simp only [List.mem_cons] at hp
      rcases hp with h | h | h
      · exact Or.inl h
      · exact Or.inr (by simp [h])
      · exact Or.inr (by simp [h])
    · rw [if_neg h1] at hp
      by_cases h2 : k = kv.1
      · rw [if_pos h2] at hp
        simp only [List.mem_cons] at hp
        rcases hp with h | h
        · exact Or.inl h
        · exact Or.inr (by simp [h])
      · rw [if_neg h2] at hp
        simp only [List.mem_cons] at hp
        rcases hp with h | h
        · exact Or.inr (by simp [h])
        · rcases ih p h with h' | h'
          · exact Or.inl h'
          · exact Or.inr (by simp [h'])

theorem insS_prepend (k : List Nat) (v : Nat) :
    ∀ l, (∀ q ∈ l, keyLt k q.1 = true) → insS k v l = (k, v) :: l := by
  intro l hl
  cases l with
  | nil => rfl
  | cons kv l =>
    rw [insS, if_pos (hl kv (by simp))]

theorem insS_append_right (k : List Nat) (v : Nat) :
    ∀ A B, (∀ p ∈ A, keyLt p.1 k = true) →
      insS k v (A ++ B) = A ++ insS k v B := by
  intro A
  induction A with
  | nil => intro B _; rfl
  | cons a A ih =>
    intro B hA
    have ha : keyLt a.1 k = true := hA a (by simp)
    have h1 : keyLt k a.1 = false := keyLt_asymm _ _ ha
    have h2 : k ≠ a.1 := fun h => (keyLt_ne _ _ ha (h ▸ rfl)).elim
    rw [List.cons_append, insS, if_neg (by simp [h1]), if_neg h2,
      ih B (fun p hp => hA p (by simp [hp])), List.cons_append]

theorem insS_append_left (k : List Nat) (v : Nat) :
    ∀ A B, (∀ q ∈ B, keyLt k q.1 = true) →
      insS k v (A ++ B) = insS k v A ++ B := by
  intro A
  induction A with
  | nil =>
    intro B hB
    rw [List.nil_append, insS_prepend k v B hB]
    rfl
  | cons a A ih =>
    intro B hB
    rw [List.cons_append, insS, insS]
    by_cases h1 : keyLt k a.1
    · rw [if_pos h1, if_pos h1]
      simp
    · rw [if_neg h1, if_neg h1]
      by_cases h2 : k = a.1
      · rw [if_pos h2, if_pos h2]
        simp
      · rw [if_neg h2, if_neg h2, ih B hB, List.cons_append]

theorem insS_sorted (k : List Nat) (v : Nat) :
    ∀ l, sortedK l → sortedK (insS k v l) := by
  intro l
  induction l with
  | nil =>
    intro _
    rw [insS]
    exact List.pairwise_singleton _ _
  | cons kv l ih =>
    intro hs
    rw [sortedK, List.pairwise_cons] at hs
    rw [insS]
    by_cases h1 : keyLt k kv.1
    · rw [if_pos h1]
      rw [sortedK, List.pairwise_cons]
      constructor
      · intro q hq
        simp only [List.mem_cons] at hq
        rcases hq with rfl | hq
        · exact h1
        · exact keyLt_trans _ _ _ h1 (hs.1 q hq)
      · exact List.Pairwise.cons hs.1 hs.2
    · rw [if_neg h1]
      by_cases h2 : k = kv.1
      · rw [if_pos h2]
        rw [sortedK, List.pairwise_cons]
        exact ⟨fun q hq => h2 ▸ hs.1 q hq, hs.2⟩
      · rw [if_neg h2]
        rw [sortedK, List.pairwise_cons]
        constructor
        · intro q hq
          rcases mem_insS k v l q hq with rfl | hq'
          · rcases keyLt_total k kv.1 with h | h | h
            · exact (h1 h).elim
            · exact (h2 h).elim
            · exact h
          · exact hs.1 q hq'
        · exact ih hs.2

theorem length_insS_not_mem (k : List Nat) (v : Nat) :
    ∀ l, k ∉ l.map (fun kv => kv.1) →
      (insS k v l).length = l.length + 1 := by
  intro l
  induction l with
  | nil => intro _; rfl
  | cons kv l ih =>
    intro hk
    simp only [List.map_cons, List.mem_cons] at hk
    push_neg at hk
    rw [insS]
    by_cases h1 : keyLt k kv.1
    · rw [if_pos h1]
      simp
    · rw [if_neg h1, if_neg hk.1]
      simp only [List.length_cons]
      rw [ih hk.2]

theorem insS_perm_not_mem (k : List Nat) (v : Nat) :
    ∀ l, k ∉ l.map (fun kv => kv.1) →
      (insS k v l).Perm ((k, v) :: l) := by
  intro l
  induction l with
  | nil => intro _; exact List.Perm.refl _
  | cons kv l ih =>
    intro hk
    simp only [List.map_cons, List.mem_cons] at hk
    push_neg at hk
    rw [insS]
    by_cases h1 : keyLt k kv.1
    · rw [if_pos h1]
    · rw [if_neg h1, if_neg hk.1]
      exact (List.Perm.cons kv (ih hk.2)).trans (List.Perm.swap (k, v) kv l)

theorem keys_insS (k : List Nat) (v : Nat) :
    ∀ l x, x ∈ (insS k v l).map (fun kv => kv.1) →
      x = k ∨ x ∈ l.map (fun kv => kv.1) := by
  intro l x hx
  simp only [List.mem_map] at hx
  obtain ⟨p, hp, rfl⟩ := hx
  rcases mem_insS k v l p hp with rfl | hp'
  · exact Or.inl rfl
  · exact Or.inr (List.mem_map_of_mem _ hp')

/-! #### Grouped-leaf toolkit -/

/-- Prefix every key of a relative key/value list with nibble `b`. -/
def shiftKV (b : Nat) (l : List KV) : List KV :=
  l.map (fun kv => (b :: kv.1, kv.2))

/-- The leaves below a children list. -/
def leavesF (d : Nat) (ch : List (Nat × TrieN Nat d)) : List KV :=
  ch.flatMap (fun bc => shiftKV bc.1 (leavesN d bc.2))

theorem leavesN_succ (d : Nat) (t : TrieN Nat (d + 1)) :
    leavesN (d + 1) t = leavesF d t.children := rfl

theorem leavesF_nil (d : Nat) : leavesF d [] = [] := rfl

theorem leavesF_cons (d : Nat) (bc : Nat × TrieN Nat d) (ch : List (Nat × TrieN Nat d)) :
    leavesF d (bc :: ch) = shiftKV bc.1 (leavesN d bc.2) ++ leavesF d ch := by
  rw [leavesF, List.flatMap_cons]
  rfl

theorem leavesF_append (d : Nat) (ch1 ch2 : List (Nat × TrieN Nat d)) :
    leavesF d (ch1 ++ ch2) = leavesF d ch1 ++ leavesF d ch2 := by
  rw [leavesF, List.flatMap_append]
  rfl

theorem mem_shiftKV (b : Nat) (l : List KV) (p : KV) :
    p ∈ shiftKV b l ↔ ∃ kv ∈ l, p = (b :: kv.1, kv.2) := by
  rw [shiftKV]
  simp only [List.mem_map]
  constructor
  · rintro ⟨kv, hkv, rfl⟩
    exact ⟨kv, hkv, rfl⟩
  · rintro ⟨kv, hkv, rfl⟩
    exact ⟨kv, hkv, rfl⟩

theorem shiftKV_sorted (b : Nat) (l : List KV) (h : sortedK l) :
    sortedK (shiftKV b l) := by
  rw [shiftKV, sortedK]
  apply List.pairwise_map.mpr
  apply h.imp
  intro p q hpq
  rw [keyLt_cons_same]
  exact hpq

theorem length_shiftKV (b : Nat) (l : List KV) :
    (shiftKV b l).length = l.length := List.length_map _ _

theorem insS_shiftKV (b : Nat) (r : List Nat) (v : Nat) :
    ∀ l, insS (b :: r) v (shiftKV b l) = shiftKV b (insS r v l) := by
  intro l
  induction l with
  | nil => rfl
  | cons kv l ih =>
    rw [shiftKV, List.map_cons, insS, keyLt_cons_same]
    by_cases h1 : keyLt r kv.1
    · rw [if_pos h1, insS, if_pos h1]
      rfl
    · rw [if_neg h1]
      by_cases h2 : r = kv.1
      · rw [if_pos (by rw [h2] : b :: r = b :: kv.1), insS, if_neg h1, if_pos h2]
        rfl
      · rw [if_neg (by simp [h2] : ¬ b :: r = b :: kv.1), insS, if_neg h1, if_neg h2]
        rw [shiftKV, List.map_cons]
        rw [shiftKV] at ih
        rw [ih]
        rfl

/-! #### chainB and sorted association lists -/

theorem chainB_iff_pairwise : ∀ l, chainB l = true ↔ List.Pairwise (· < ·) l
  | [] => by simp [chainB]
  | [a] => by simp [chainB]
  | a :: b :: r => by
    rw [chainB]
    simp only [Bool.and_eq_true, decide_eq_true_eq]
    rw [chainB_iff_pairwise (b :: r)]
    constructor
    · rintro ⟨hab, hp⟩
      rw [List.pairwise_cons]
      refine ⟨?_, hp⟩
      intro x hx
      rcases List.mem_cons.mp hx with rfl | hx
      · exact hab
      · rw [List.pairwise_cons] at hp
        exact Nat.lt_trans hab (hp.1 x hx)
    · intro hp
      rw [List.pairwise_cons] at hp
      exact ⟨hp.1 b (by simp), hp.2⟩

theorem mem_setA {α : Type} (b : Nat) (c : α) :
    ∀ l p, p ∈ setA b c l → p = (b, c) ∨ p ∈ l := by
  intro l
  induction l with
  | nil =>
    intro p hp
    rw [setA] at hp
    simp at hp
    exact Or.inl hp
  | cons x l ih =>
    intro p hp
    rw [setA] at hp
    by_cases h1 : b < x.1
    · rw [if_pos h1] at hp
      rcases List.mem_cons.mp hp with rfl | hp
      · exact Or.inl rfl
      · exact Or.inr hp
    · rw [if_neg h1] at hp
      by_cases h2 : b = x.1
      · rw [if_pos h2] at hp
        rcases List.mem_cons.mp hp with rfl | hp
        · exact Or.inl rfl
        · exact Or.inr (by simp [hp])
      · rw [if_neg h2] at hp
        rcases List.mem_cons.mp hp with rfl | hp
        · exact Or.inr (by simp)
        · rcases ih p hp with h | h
          · exact Or.inl h
          · exact Or.inr (by simp [h])

theorem getA_none {α : Type} (b : Nat) :
    ∀ l : List (Nat × α), (∀ p ∈ l, p.1 ≠ b) → getA b l = none := by
  intro l
  induction l with
  | nil => intro _; rfl
  | cons x l ih =>
    intro h
    rw [getA, if_neg (h x (by simp)), ih (fun p hp => h p (by simp [hp]))]

theorem getA_mem {α : Type} (b : Nat) :
    ∀ (l : List (Nat × α)) c, getA b l = some c → (b, c) ∈ l := by
  intro l
  induction l with
  | nil => intro c h; cases h
  | cons x l ih =>
    intro c h
    rw [getA] at h
    by_cases h1 : x.1 = b
    · rw [if_pos h1] at h
      cases h
      rw [← h1]
      exact List.mem_cons_self _ _
    · rw [if_neg h1] at h
      exact List.mem_cons_of_mem _ (ih c h)

/-- On a branch-sorted association list, `setA` splits into the
elements below `b`, the new binding, and the elements above `b`. -/
theorem split_setA {α : Type} (b : Nat) (c : α) :
    ∀ l : List (Nat × α), List.Pairwise (· < ·) (l.map (fun p => p.1)) →
      setA b c l =
        l.filter (fun p => decide (p.1 < b)) ++ (b, c) ::
          l.filter (fun p => decide (b < p.1)) := by
  intro l
  induction l with
  | nil => intro _; rfl
  | cons x l ih =>
    intro hp
    rw [List.map_cons, List.pairwise_cons] at hp
    have hrest : ∀ q ∈ l, x.1 < q.1 := by
      intro q hq
      exact hp.1 q.1 (List.mem_map_of_mem _ hq)
    rw [setA]
    by_cases h1 : b < x.1
    · rw [if_pos h1]
      have hf1 : (x :: l).filter (fun p => decide (p.1 < b)) = [] := by
        rw [List.filter_eq_nil_iff]
        intro q hq
        rcases List.mem_cons.mp hq with rfl | hq
        · simp
          omega
        · have := hrest q hq
          simp
          omega
      have hf2 : (x :: l).filter (fun p => decide (b < p.1)) = x :: l := by
        rw [List.filter_eq_self]
        intro q hq
        rcases List.mem_cons.mp hq with rfl | hq
        · simp [h1]
        · have := hrest q hq
          simp
          omega
      rw [hf1, hf2, List.nil_append]
    · rw [if_neg h1]
      by_cases h2 : b = x.1
      · rw [if_pos h2]
        have hf1 : (x :: l).filter (fun p => decide (p.1 < b)) = [] := by
          rw [List.filter_eq_nil_iff]
          intro q hq
          rcases List.mem_cons.mp hq with rfl | hq
          · simp
            omega
          · have := hrest q hq
            simp
            omega
        have hf2 : (x :: l).filter (fun p => decide (b < p.1)) = l := by
          rw [List.filter_cons_of_neg (by simp; omega)]
          rw [List.filter_eq_self]
          intro q hq
          have := hrest q hq
          simp
          omega
        rw [hf1, hf2, List.nil_append]
      · have h3 : x.1 < b := by omega
        rw [if_neg h2]
        rw [List.filter_cons_of_pos (by simp [h3])]
        rw [List.filter_cons_of_neg (by simp; omega)]
        rw [ih hp.2, List.cons_append]

/-- On a branch-sorted association list, the list itself splits around
branch `b` into below, the binding at `b` (as read by `getA`), and
above. -/
theorem split_getA {α : Type} (b : Nat) :
    ∀ l : List (Nat × α), List.Pairwise (· < ·) (l.map (fun p => p.1)) →
      l = l.filter (fun p => decide (p.1 < b)) ++
          (match getA b l with
            | none => []
            | some c => [(b, c)]) ++
          l.filter (fun p => decide (b < p.1)) := by
  intro l
  induction l with
  | nil => intro _; rfl
  | cons x l ih =>
    intro hp
    rw [List.map_cons, List.pairwise_cons] at hp
    have hrest : ∀ q ∈ l, x.1 < q.1 := by
      intro q hq
      exact hp.1 q.1 (List.mem_map_of_mem _ hq)
    rcases Nat.lt_trichotomy x.1 b with h1 | h1 | h1
    · have hneq : ¬ x.1 = b := by omega
      rw [getA, if_neg hneq]
      rw [List.filter_cons_of_pos (by simp [h1])]
      rw [List.filter_cons_of_neg (by simp; omega)]
      conv_lhs => rw [ih hp.2]
      simp only [List.cons_append, List.append_assoc]
    · subst h1
      have hf1 : (x :: l).filter (fun p => decide (p.1 < x.1)) = [] := by
        rw [List.filter_eq_nil_iff]
        intro q hq
        rcases List.mem_cons.mp hq with rfl | hq
        · simp
        · have := hrest q hq
          simp
          omega
      have hf2 : (x :: l).filter (fun p => decide (x.1 < p.1)) = l := by
        rw [List.filter_cons_of_neg (by simp)]
        rw [List.filter_eq_self]
        intro q hq
        have := hrest q hq
        simp
        omega
      rw [getA, if_pos rfl, hf1, hf2, List.nil_append]
      rfl
    · have hnone : getA b (x :: l) = none := by
        apply getA_none
        intro p hp'
        rcases List.mem_cons.mp hp' with rfl | hp'
        · omega
        · have := hrest p hp'
          omega
      have hf1 : (x :: l).filter (fun p => decide (p.1 < b)) = [] := by
        rw [List.filter_eq_nil_iff]
        intro q hq
        rcases List.mem_cons.mp hq with rfl | hq
        · simp
          omega
        · have := hrest q hq
          simp
          omega
      have hf2 : (x :: l).filter (fun p => decide (b < p.1)) = x :: l := by
        rw [List.filter_eq_self]
        intro q hq
        rcases List.mem_cons.mp hq with rfl | hq
        · simp [h1]
        · have := hrest q hq
          simp
          omega
      rw [hnone, hf1, hf2]
      simp

theorem mem_leavesF (d : Nat) (ch : List (Nat × TrieN Nat d)) (p : KV) :
    p ∈ leavesF d ch ↔
      ∃ bc ∈ ch, ∃ kv ∈ leavesN d bc.2, p = (bc.1 :: kv.1, kv.2) := by
  rw [leavesF]
  simp only [List.mem_flatMap, mem_shiftKV]

theorem leavesF_sorted (d : Nat) (ch : List (Nat × TrieN Nat d))
    (hch : ∀ bc ∈ ch, sortedK (leavesN d bc.2))
    (hp : List.Pairwise (· < ·) (ch.map (fun p => p.1))) :
    sortedK (leavesF d ch) := by
  induction ch with
  | nil => exact List.Pairwise.nil
  | cons bc rest ih =>
    rw [List.map_cons, List.pairwise_cons] at hp
    rw [leavesF_cons, sortedK]
    apply List.pairwise_append.mpr
    refine ⟨shiftKV_sorted _ _ (hch bc (by simp)), ih (fun x hx => hch x (by simp [hx])) hp.2, ?_⟩
    intro p hpmem q hqmem
    obtain ⟨kv, _, rfl⟩ := (mem_shiftKV _ _ _).mp hpmem
    obtain ⟨bc', hbc', kv', _, rfl⟩ := (mem_leavesF _ _ _).mp hqmem
    have hlt : bc.1 < bc'.1 := hp.1 bc'.1 (List.mem_map_of_mem _ hbc')
    exact keyLt_cons_lt hlt _ _

/-! #### Unfolding the invariants -/

theorem goodB_zero_iff (t : TrieN Nat 0) :
    goodB 0 t = true ↔
      t.md = countO t.value ∧ (t.dirty = true ∨ isNormalB 0 t = true) := by
  rw [goodB]
  simp

theorem goodB_succ_iff (d : Nat) (t : TrieN Nat (d + 1)) :
    goodB (d + 1) t = true ↔
      List.Pairwise (· < ·) (t.children.map (fun p => p.1)) ∧
      (∀ b ∈ t.children.map (fun p => p.1), b < 16) ∧
      t.md = (leavesN (d + 1) t).length ∧
      (∀ bc ∈ t.children, goodB d bc.2 = true) ∧
      (t.dirty = true ∨ isNormalB (d + 1) t = true) := by
  rw [goodB]
  simp [List.all_eq_true, chainB_iff_pairwise]
  tauto

theorem isNormalB_zero_iff (t : TrieN Nat 0) :
    isNormalB 0 t = true ↔
      t.dirty = false ∧ t.cached = some (leafHash t.value t.md) ∧
      t.md = countO t.value := by
  rw [isNormalB]
  simp [Bool.and_assoc]

theorem isNormalB_succ_iff (d : Nat) (t : TrieN Nat (d + 1)) :
    isNormalB (d + 1) t = true ↔
      t.dirty = false ∧
      t.cached = some (computeHashN (d + 1) t) ∧
      List.Pairwise (· < ·) (t.children.map (fun p => p.1)) ∧
      (∀ b ∈ t.children.map (fun p => p.1), b < 16) ∧
      t.md = (leavesN (d + 1) t).length ∧
      (∀ bc ∈ t.children, isNormalB d bc.2 = true ∧ isEmptyB d bc.2 = false) := by
  rw [isNormalB]
  simp [List.all_eq_true, chainB_iff_pairwise, Bool.and_assoc]

theorem isNormal_good : ∀ (d : Nat) (t : TrieN Nat d),
    isNormalB d t = true → goodB d t = true := by
  intro d
  induction d with
  | zero =>
    intro t h
    rw [isNormalB_zero_iff] at h
    rw [goodB_zero_iff]
    refine ⟨h.2.2, Or.inr ?_⟩
    rw [isNormalB_zero_iff]
    exact h
  | succ d ih =>
    intro t h
    have h' := (isNormalB_succ_iff d t).mp h
    rw [goodB_succ_iff]
    exact ⟨h'.2.2.1, h'.2.2.2.1, h'.2.2.2.2.1,
      fun bc hbc => ih bc.2 (h'.2.2.2.2.2 bc hbc).1, Or.inr h⟩

theorem isNormal_noDirty : ∀ (d : Nat) (t : TrieN Nat d),
    isNormalB d t = true → noDirtyB d t = true := by
  intro d
  induction d with
  | zero =>
    intro t h
    rw [isNormalB_zero_iff] at h
    rw [noDirtyB, h.1]
    rfl
  | succ d ih =>
    intro t h
    have h' := (isNormalB_succ_iff d t).mp h
    rw [noDirtyB, h'.1]
    simp only [Bool.not_false, Bool.true_and, List.all_eq_true]
    intro bc hbc
    exact ih bc.2 (h'.2.2.2.2.2 bc hbc).1

theorem good_sorted : ∀ (d : Nat) (t : TrieN Nat d),
    goodB d t = true → sortedK (leavesN d t) := by
  intro d
  induction d with
  | zero =>
    intro t _
    rw [leavesN]
    cases t.value with
    | none => exact List.Pairwise.nil
    | some v => exact List.pairwise_singleton _ _
  | succ d ih =>
    intro t h
    have h' := (goodB_succ_iff d t).mp h
    rw [leavesN_succ]
    exact leavesF_sorted d _ (fun bc hbc => ih bc.2 (h'.2.2.2.1 bc hbc)) h'.1

theorem good_keys_ok : ∀ (d : Nat) (t : TrieN Nat d),
    goodB d t = true → ∀ kv ∈ leavesN d t, okKey d kv.1 = true := by
  intro d
  induction d with
  | zero =>
    intro t _ kv hkv
    rw [leavesN] at hkv
    cases hval : t.value with
    | none => rw [hval] at hkv; cases hkv
    | some v =>
      rw [hval] at hkv
      rcases List.mem_singleton.mp hkv with rfl
      rfl
  | succ d ih =>
    intro t h kv hkv
    have h' := (goodB_succ_iff d t).mp h
    rw [leavesN_succ] at hkv
    obtain ⟨bc, hbc, kv', hkv', rfl⟩ := (mem_leavesF _ _ _).mp hkv
    have hb : bc.1 < 16 := h'.2.1 bc.1 (List.mem_map_of_mem _ hbc)
    have hrec := ih bc.2 (h'.2.2.2.1 bc hbc) kv' hkv'
    rw [okKey] at hrec ⊢
    simp only [Bool.and_eq_true, beq_iff_eq, List.length_cons] at hrec ⊢
    refine ⟨by omega, ?_⟩
    rw [okNibs] at hrec ⊢
    simp only [List.all_eq_true] at hrec ⊢
    intro x hx
    rcases List.mem_cons.mp hx with rfl | hx
    · simpa using hb
    · exact hrec.2 x hx

/-! #### Length and erase algebra on sorted key/value lists -/

theorem length_insS (k : List Nat) (v : Nat) :
    ∀ l, sortedK l →
      (insS k v l).length =
        (if k ∈ l.map (fun kv => kv.1) then l.length else l.length + 1) := by
  intro l
  induction l with
  | nil => intro _; rfl
  | cons kv l ih =>
    intro hs
    have hs' : sortedK l := hs.sublist (List.sublist_cons_self _ _)
    replace hs := List.pairwise_cons.mp hs
    rw [insS]
    by_cases h1 : keyLt k kv.1
    · rw [if_pos h1]
      have hnot : k ∉ (kv :: l).map (fun kv => kv.1) := by
        intro hmem
        rw [List.map_cons, List.mem_cons] at hmem
        rcases hmem with heq | hmem
        · exact keyLt_ne _ _ h1 heq
        · obtain ⟨q, hq, hqe⟩ := List.mem_map.mp hmem
          have hlt := hs.1 q hq
          rw [hqe] at hlt
          have h2 := keyLt_trans _ _ _ h1 hlt
          rw [keyLt_irrefl] at h2
          cases h2
      rw [if_neg hnot]
      simp
    · rw [if_neg h1]
      by_cases h2 : k = kv.1
      · rw [if_pos h2, if_pos (by simp [h2])]
        simp
      · rw [if_neg h2]
        have hnothead : k ∈ (kv :: l).map (fun kv => kv.1) ↔
            k ∈ l.map (fun kv => kv.1) := by
          simp only [List.map_cons, List.mem_cons]
          constructor
          · rintro (h | h)
            · exact (h2 h).elim
            · exact h
          · exact Or.inr
        simp only [List.length_cons]
        rw [ih hs']
        by_cases h3 : k ∈ l.map (fun kv => kv.1)
        · rw [if_pos h3, if_pos (hnothead.mpr h3)]
        · rw [if_neg h3, if_neg (fun hc => h3 (hnothead.mp hc))]

theorem eraseK_append (K : List Nat) (A B : List KV) :
    eraseK K (A ++ B) = eraseK K A ++ eraseK K B := by
  rw [eraseK, eraseK, eraseK, List.filter_append]

theorem eraseK_sorted (K : List Nat) (l : List KV) (h : sortedK l) :
    sortedK (eraseK K l) := h.filter _

theorem mem_eraseK (K : List Nat) (l : List KV) (p : KV) :
    p ∈ eraseK K l ↔ p ∈ l ∧ p.1 ≠ K := by
  rw [eraseK, List.mem_filter]
  simp

theorem eraseK_eq_self (K : List Nat) (l : List KV)
    (h : K ∉ l.map (fun kv => kv.1)) : eraseK K l = l := by
  rw [eraseK, List.filter_eq_self]
  intro p hp
  simp only [Bool.not_eq_eq_eq_not, Bool.not_true, beq_eq_false_iff_ne, ne_eq]
  intro heq
  exact h (by rw [← heq]; exact List.mem_map_of_mem _ hp)

theorem eraseK_insS_self (K : List Nat) (v : Nat) :
    ∀ l, eraseK K (insS K v l) = eraseK K l := by
  intro l
  induction l with
  | nil =>
    rw [insS, eraseK, eraseK]
    simp
  | cons kv l ih =>
    rw [insS]
    by_cases h1 : keyLt K kv.1
    · rw [if_pos h1, eraseK, List.filter_cons_of_neg (by simp)]
      rw [eraseK]
    · rw [if_neg h1]
      by_cases h2 : K = kv.1
      · rw [if_pos h2, eraseK, List.filter_cons_of_neg (by simp), eraseK,
          List.filter_cons_of_neg (by simp [h2])]
      · rw [if_neg h2]
        rw [eraseK, List.filter_cons, eraseK, List.filter_cons]
        simp only [eraseK] at ih
        rw [ih]

theorem eraseK_insS_comm (K k : List Nat) (v : Nat) (hne : k ≠ K) :
    ∀ l, sortedK l →
      eraseK K (insS k v l) = insS k v (eraseK K l) := by
  intro l
  induction l with
  | nil =>
    intro _
    rw [insS, eraseK, eraseK]
    simp only [List.filter_nil]
    rw [List.filter_cons_of_pos (by simp [hne]), List.filter_nil]
    rw [insS]
  | cons kv l ih =>
    intro hs
    have hs' : sortedK l := hs.sublist (List.sublist_cons_self _ _)
    replace hs := List.pairwise_cons.mp hs
    rw [insS]
    by_cases h1 : keyLt k kv.1
    · rw [if_pos h1]
      by_cases hK : kv.1 = K
      · rw [eraseK, List.filter_cons_of_pos (by simp [hne]),
          List.filter_cons_of_neg (by simp [hK])]
        rw [eraseK, List.filter_cons_of_neg (by simp [hK])]
        rw [insS_prepend]
        intro q hq
        rw [List.mem_filter] at hq
        exact keyLt_trans _ _ _ h1 (hs.1 q hq.1)
      · rw [eraseK, List.filter_cons_of_pos (by simp [hne]),
          List.filter_cons_of_pos (by simp [hK])]
        rw [eraseK, List.filter_cons_of_pos (by simp [hK])]
        rw [insS, if_pos h1]
    · rw [if_neg h1]
      by_cases h2 : k = kv.1
      · subst h2
        rw [if_pos rfl]
        rw [eraseK, List.filter_cons_of_pos (by simp [hne])]
        rw [eraseK, List.filter_cons_of_pos (by simp [hne])]
        rw [insS, if_neg h1, if_pos rfl]
      · rw [if_neg h2]
        by_cases hK : kv.1 = K
        · rw [eraseK, List.filter_cons_of_neg (by simp [hK]), eraseK,
            List.filter_cons_of_neg (by simp [hK])]
          simp only [eraseK] at ih
          exact ih hs'
        · rw [eraseK, List.filter_cons_of_pos (by simp [hK]), eraseK,
            List.filter_cons_of_pos (by simp [hK])]
          rw [insS, if_neg h1, if_neg h2]
          simp only [eraseK] at ih
          rw [ih hs']

theorem split_getA_none {α : Type} (b : Nat) (l : List (Nat × α))
    (hpair : List.Pairwise (· < ·) (l.map (fun p => p.1)))
    (h : getA b l = none) :
    l = l.filter (fun p => decide (p.1 < b)) ++
        l.filter (fun p => decide (b < p.1)) := by
  conv_lhs => rw [split_getA b l hpair, h]
  simp

theorem split_getA_some {α : Type} (b : Nat) (l : List (Nat × α)) (c : α)
    (hpair : List.Pairwise (· < ·) (l.map (fun p => p.1)))
    (h : getA b l = some c) :
    l = l.filter (fun p => decide (p.1 < b)) ++ (b, c) ::
        l.filter (fun p => decide (b < p.1)) := by
  conv_lhs => rw [split_getA b l hpair, h]
  simp

theorem leavesF_pair_cons (d : Nat) (b : Nat) (c : TrieN Nat d)
    (ch : List (Nat × TrieN Nat d)) :
    leavesF d ((b, c) :: ch) = shiftKV b (leavesN d c) ++ leavesF d ch :=
  leavesF_cons d (b, c) ch

/-! #### Operation lemmas: shared helpers -/

theorem leaves_emptyN : ∀ d, leavesN d (emptyN d) = []
  | 0 => rfl
  | _ + 1 => rfl

theorem goodB_emptyN : ∀ d, goodB d (emptyN d) = true
  | 0 => rfl
  | _ + 1 => rfl

theorem leavesF_filter_lt_keyLt (d b : Nat) (r : List Nat)
    (ch : List (Nat × TrieN Nat d)) :
    ∀ p ∈ leavesF d (ch.filter (fun bc => decide (bc.1 < b))),
      keyLt p.1 (b :: r) = true := by
  intro p hp
  obtain ⟨bc, hbc, kv, _, rfl⟩ := (mem_leavesF _ _ _).mp hp
  have hlt : bc.1 < b := by
    have := (List.mem_filter.mp hbc).2
    simpa using this
  exact keyLt_cons_lt hlt _ _

theorem leavesF_filter_gt_keyLt (d b : Nat) (r : List Nat)
    (ch : List (Nat × TrieN Nat d)) :
    ∀ q ∈ leavesF d (ch.filter (fun bc => decide (b < bc.1))),
      keyLt (b :: r) q.1 = true := by
  intro q hq
  obtain ⟨bc, hbc, kv, _, rfl⟩ := (mem_leavesF _ _ _).mp hq
  have hlt : b < bc.1 := by
    have := (List.mem_filter.mp hbc).2
    simpa using this
  exact keyLt_cons_lt hlt _ _

theorem pairwise_fst_filter {α : Type} (q : Nat × α → Bool)
    (ch : List (Nat × α))
    (hpair : List.Pairwise (· < ·) (ch.map (fun p => p.1))) :
    List.Pairwise (· < ·) ((ch.filter q).map (fun p => p.1)) :=
  hpair.sublist (List.Sublist.map _ (List.filter_sublist ch))

theorem pairwise_fst_setA {α : Type} (b : Nat) (c : α)
    (ch : List (Nat × α))
    (hpair : List.Pairwise (· < ·) (ch.map (fun p => p.1))) :
    List.Pairwise (· < ·) ((setA b c ch).map (fun p => p.1)) := by
  rw [split_setA b c ch hpair]
  rw [List.map_append, List.map_cons]
  apply List.pairwise_append.mpr
  refine ⟨pairwise_fst_filter _ ch hpair, ?_, ?_⟩
  · rw [List.pairwise_cons]
    constructor
    · intro x hx
      obtain ⟨p, hp, rfl⟩ := List.mem_map.mp hx
      have := (List.mem_filter.mp hp).2
      simpa using this
    · exact pairwise_fst_filter _ ch hpair
  · intro x hx y hy
    obtain ⟨p, hp, rfl⟩ := List.mem_map.mp hx
    have hxlt : p.1 < b := by
      have := (List.mem_filter.mp hp).2
      simpa using this
    rcases List.mem_cons.mp hy with rfl | hy
    · exact hxlt
    · obtain ⟨s, hs, rfl⟩ := List.mem_map.mp hy
      have : b < s.1 := by
        have := (List.mem_filter.mp hs).2
        simpa using this
      omega

theorem okKey_cons (d b : Nat) (r : List Nat) :
    okKey (d + 1) (b :: r) = true ↔ b < 16 ∧ okKey d r = true := by
  rw [okKey, okKey, okNibs, okNibs]
  simp [List.all_eq_true]
  tauto

/-! #### Insert -/

/-- `insert` refines sorted-list overwrite-insert: the leaves of the new
trie are `insS k v` of the old leaves, goodness is preserved, and the
returned metadata delta accounts for the change in leaf count. -/
theorem insN_spec : ∀ (d : Nat) (k : List Nat) (v : Nat) (t : TrieN Nat d),
    goodB d t = true → okKey d k = true →
    leavesN d (insN d k v t).1 = insS k v (leavesN d t) ∧
    goodB d (insN d k v t).1 = true ∧
    (leavesN d t).length + (insN d k v t).2 = (insS k v (leavesN d t)).length := by
  intro d
  induction d with
  | zero =>
    intro k v t hg hk
    have hknil : k = [] := by
      rw [okKey] at hk
      simp at hk
      exact hk.1
    subst hknil
    have hg0 := (goodB_zero_iff t).mp hg
    cases hval : t.value with
    | none =>
      have hmd : t.md = 0 := by
        rw [hg0.1, hval]
        rfl
      refine ⟨?_, ?_, ?_⟩
      · show leavesN 0 ⟨some v, 1, true, t.cached⟩ = insS [] v (leavesN 0 t)
        rw [leavesN, leavesN, hval]
        rfl
      · rw [goodB_zero_iff]
        exact ⟨rfl, Or.inl rfl⟩
      · show (leavesN 0 t).length + (1 - t.md) = (insS [] v (leavesN 0 t)).length
        rw [leavesN, hval, hmd]
        rfl
    | some v0 =>
      have hmd : t.md = 1 := by
        rw [hg0.1, hval]
        rfl
      refine ⟨?_, ?_, ?_⟩
      · show leavesN 0 ⟨some v, 1, true, t.cached⟩ = insS [] v (leavesN 0 t)
        rw [leavesN, leavesN, hval]
        rw [insS, if_neg (by rw [keyLt_irrefl]; simp), if_pos rfl]
      · rw [goodB_zero_iff]
        exact ⟨rfl, Or.inl rfl⟩
      · show (leavesN 0 t).length + (1 - t.md) = (insS [] v (leavesN 0 t)).length
        rw [leavesN, hval, hmd]
        rw [insS, if_neg (by rw [keyLt_irrefl]; simp), if_pos rfl]
        rfl
  | succ d ih =>
    intro k v t hg hk
    cases k with
    | nil =>
      exfalso
      rw [okKey] at hk
      simp at hk
    | cons b r =>
      obtain ⟨hb16, hkr⟩ := (okKey_cons d b r).mp hk
      have hg' := (goodB_succ_iff d t).mp hg
      have hpair := hg'.1
      have hmdT : t.md = (leavesN (d + 1) t).length := hg'.2.2.1
      rcases hgetA : getA b t.children with _ | c0
      · -- the branch is missing: a fresh empty child is materialized
        have ihc := ih r v (emptyN d) (goodB_emptyN d) hkr
        rw [leaves_emptyN] at ihc
        have hstep :
            insN (d + 1) (b :: r) v t =
              (⟨setA b (insN d r v (emptyN d)).1 t.children,
                t.md + (insN d r v (emptyN d)).2, true, t.cached⟩,
               (insN d r v (emptyN d)).2) := by
          simp only [insN, hgetA, Option.getD_none]
        rw [hstep]
        have hleaves1 : leavesN d (insN d r v (emptyN d)).1 = [(r, v)] := by
          rw [ihc.1]
          rfl
        have hdelta : (insN d r v (emptyN d)).2 = 1 := by
          have := ihc.2.2
          simpa using this
        have ha : leavesF d (setA b (insN d r v (emptyN d)).1 t.children)
            = insS (b :: r) v (leavesF d t.children) := by
          rw [split_setA b _ t.children hpair]
          conv_rhs => rw [split_getA_none b t.children hpair hgetA]
          rw [leavesF_append, leavesF_pair_cons, leavesF_append]
          rw [insS_append_right _ _ _ _ (leavesF_filter_lt_keyLt d b r t.children)]
          congr 1
          rw [insS_prepend _ _ _ (leavesF_filter_gt_keyLt d b r t.children)]
          rw [hleaves1]
          rfl
        have haN : leavesN (d + 1)
            (⟨setA b (insN d r v (emptyN d)).1 t.children,
              t.md + (insN d r v (emptyN d)).2, true, t.cached⟩ : TrieN Nat (d + 1))
            = insS (b :: r) v (leavesN (d + 1) t) := by
          rw [leavesN_succ]
          exact ha
        have hc : (leavesN (d + 1) t).length + (insN d r v (emptyN d)).2
            = (insS (b :: r) v (leavesN (d + 1) t)).length := by
          rw [leavesN_succ]
          conv_lhs => rw [split_getA_none b t.children hpair hgetA]
          conv_rhs => rw [split_getA_none b t.children hpair hgetA]
          rw [leavesF_append]
          rw [insS_append_right _ _ _ _ (leavesF_filter_lt_keyLt d b r t.children)]
          rw [insS_prepend _ _ _ (leavesF_filter_gt_keyLt d b r t.children)]
          rw [hdelta]
          simp only [List.length_append, List.length_cons]
          omega
        refine ⟨haN, ?_, hc⟩
        rw [goodB_succ_iff]
        refine ⟨pairwise_fst_setA b _ t.children hpair, ?_, ?_, ?_, Or.inl rfl⟩
        · intro x hx
          obtain ⟨p, hp, rfl⟩ := List.mem_map.mp hx
          rcases mem_setA _ _ _ _ hp with rfl | hp'
          · exact hb16
          · exact hg'.2.1 p.1 (List.mem_map_of_mem _ hp')
        · show t.md + (insN d r v (emptyN d)).2 = _
          rw [haN, hmdT]
          exact hc
        · intro bc hbc
          rcases mem_setA _ _ _ _ hbc with rfl | hbc'
          · exact ihc.2.1
          · exact hg'.2.2.2.1 bc hbc'
      · -- the branch exists: recurse into the child
        have hmem := getA_mem b _ c0 hgetA
        have hcgood := hg'.2.2.2.1 (b, c0) hmem
        have ihc := ih r v c0 hcgood hkr
        have hstep :
            insN (d + 1) (b :: r) v t =
              (⟨setA b (insN d r v c0).1 t.children,
                t.md + (insN d r v c0).2, true, t.cached⟩,
               (insN d r v c0).2) := by
          simp only [insN, hgetA, Option.getD_some]
        rw [hstep]
        have ha : leavesF d (setA b (insN d r v c0).1 t.children)
            = insS (b :: r) v (leavesF d t.children) := by
          rw [split_setA b _ t.children hpair]
          conv_rhs => rw [split_getA_some b t.children c0 hpair hgetA]
          rw [leavesF_append, leavesF_pair_cons, leavesF_append, leavesF_pair_cons]
          rw [insS_append_right _ _ _ _ (leavesF_filter_lt_keyLt d b r t.children)]
          congr 1
          rw [insS_append_left _ _ _ _ (leavesF_filter_gt_keyLt d b r t.children)]
          rw [insS_shiftKV, ihc.1]
        have haN : leavesN (d + 1)
            (⟨setA b (insN d r v c0).1 t.children,
              t.md + (insN d r v c0).2, true, t.cached⟩ : TrieN Nat (d + 1))
            = insS (b :: r) v (leavesN (d + 1) t) := by
          rw [leavesN_succ]
          exact ha
        have hc : (leavesN (d + 1) t).length + (insN d r v c0).2
            = (insS (b :: r) v (leavesN (d + 1) t)).length := by
          rw [leavesN_succ]
          conv_lhs => rw [split_getA_some b t.children c0 hpair hgetA]
          conv_rhs => rw [split_getA_some b t.children c0 hpair hgetA]
          rw [leavesF_append, leavesF_pair_cons]
          rw [insS_append_right _ _ _ _ (leavesF_filter_lt_keyLt d b r t.children)]
          rw [insS_append_left _ _ _ _ (leavesF_filter_gt_keyLt d b r t.children)]
          rw [insS_shiftKV]
          simp only [List.length_append, length_shiftKV]
          have := ihc.2.2
          omega
        refine ⟨haN, ?_, hc⟩
        rw [goodB_succ_iff]
        refine ⟨pairwise_fst_setA b _ t.children hpair, ?_, ?_, ?_, Or.inl rfl⟩
        · intro x hx
          obtain ⟨p, hp, rfl⟩ := List.mem_map.mp hx
          rcases mem_setA _ _ _ _ hp with rfl | hp'
          · exact hb16
          · exact hg'.2.1 p.1 (List.mem_map_of_mem _ hp')
        · show t.md + (insN d r v c0).2 = _
          rw [haN, hmdT]
          exact hc
        · intro bc hbc
          rcases mem_setA _ _ _ _ hbc with rfl | hbc'
          · exact ihc.2.1
          · exact hg'.2.2.2.1 bc hbc'

/-! #### Delete -/

theorem getA_ne_none_of_mem {α : Type} (b : Nat) (c : α) :
    ∀ l : List (Nat × α), (b, c) ∈ l → getA b l ≠ none := by
  intro l
  induction l with
  | nil => intro h; cases h
  | cons x l ih =>
    intro hmem
    rw [getA]
    by_cases h1 : x.1 = b
    · rw [if_pos h1]
      simp
    · rw [if_neg h1]
      rcases List.mem_cons.mp hmem with heq | hmem'
      · exact absurd (congrArg Prod.fst heq.symm) h1
      · exact ih hmem'

theorem beq_cons_cons (b : Nat) (x y : List Nat) :
    ((b :: x : List Nat) == b :: y) = (x == y) := by
  rw [Bool.eq_iff_iff]
  rw [beq_iff_eq, beq_iff_eq]
  simp

theorem eraseK_shiftKV_same (b : Nat) (r : List Nat) (l : List KV) :
    eraseK (b :: r) (shiftKV b l) = shiftKV b (eraseK r l) := by
  rw [eraseK, eraseK, shiftKV, shiftKV, List.filter_map]
  congr 1
  apply List.filter_congr
  intro kv _
  simp only [Function.comp_apply]
  rw [beq_cons_cons]

theorem not_mem_keys_leavesF_lt (d b : Nat) (r : List Nat)
    (ch : List (Nat × TrieN Nat d)) :
    (b :: r) ∉ (leavesF d (ch.filter (fun bc => decide (bc.1 < b)))).map
      (fun kv => kv.1) := by
  intro hmem
  obtain ⟨p, hp, hpe⟩ := List.mem_map.mp hmem
  obtain ⟨bc, hbc, kv, _, rfl⟩ := (mem_leavesF _ _ _).mp hp
  have hlt : bc.1 < b := by
    have := (List.mem_filter.mp hbc).2
    simpa using this
  rw [List.cons.injEq] at hpe
  omega

theorem not_mem_keys_leavesF_gt (d b : Nat) (r : List Nat)
    (ch : List (Nat × TrieN Nat d)) :
    (b :: r) ∉ (leavesF d (ch.filter (fun bc => decide (b < bc.1)))).map
      (fun kv => kv.1) := by
  intro hmem
  obtain ⟨p, hp, hpe⟩ := List.mem_map.mp hmem
  obtain ⟨bc, hbc, kv, _, rfl⟩ := (mem_leavesF _ _ _).mp hp
  have hlt : b < bc.1 := by
    have := (List.mem_filter.mp hbc).2
    simpa using this
  rw [List.cons.injEq] at hpe
  omega

/-- `delete_value` refines key filtering on the sorted leaf list:
absent-key deletion is a no-op, present-key deletion removes the leaf,
goodness is preserved, and the removed leaf count accounts for the
change in leaf count. -/
theorem delN_spec : ∀ (d : Nat) (K : List Nat) (t : TrieN Nat d),
    goodB d t = true → okKey d K = true →
    leavesN d (delN d K t).1 = eraseK K (leavesN d t) ∧
    goodB d (delN d K t).1 = true ∧
    (leavesN d t).length = (eraseK K (leavesN d t)).length + (delN d K t).2 := by
  intro d
  induction d with
  | zero =>
    intro K t hg hk
    have hknil : K = [] := by
      rw [okKey] at hk
      simp at hk
      exact hk.1
    subst hknil
    have hg0 := (goodB_zero_iff t).mp hg
    cases hval : t.value with
    | none =>
      have hstep : delN 0 [] t = (t, 0) := by
        simp only [delN, hval]
      rw [hstep]
      refine ⟨?_, hg, ?_⟩
      · rw [leavesN, hval]
        rfl
      · rw [leavesN, hval]
        rfl
    | some v0 =>
      have hstep : delN 0 [] t = (⟨none, 0, true, t.cached⟩, 1) := by
        simp only [delN, hval]
      rw [hstep]
      refine ⟨?_, ?_, ?_⟩
      · rw [leavesN, leavesN, hval]
        rfl
      · rw [goodB_zero_iff]
        exact ⟨rfl, Or.inl rfl⟩
      · rw [leavesN, hval]
        rfl
  | succ d ih =>
    intro K t hg hk
    cases K with
    | nil =>
      exfalso
      rw [okKey] at hk
      simp at hk
    | cons b r =>
      obtain ⟨hb16, hkr⟩ := (okKey_cons d b r).mp hk
      have hg' := (goodB_succ_iff d t).mp hg
      have hpair := hg'.1
      have hmdT : t.md = (leavesN (d + 1) t).length := hg'.2.2.1
      rcases hgetA : getA b t.children with _ | c0
      · -- branch absent: zero-delta no-op
        have hstep : delN (d + 1) (b :: r) t = (t, 0) := by
          simp only [delN, hgetA]
        rw [hstep]
        have hnomem : (b :: r) ∉ (leavesN (d + 1) t).map (fun kv => kv.1) := by
          intro hmem
          obtain ⟨p, hp, hpe⟩ := List.mem_map.mp hmem
          rw [leavesN_succ] at hp
          obtain ⟨bc, hbc, kv, _, rfl⟩ := (mem_leavesF _ _ _).mp hp
          rw [List.cons.injEq] at hpe
          have : getA b t.children ≠ none := by
            apply getA_ne_none_of_mem b bc.2
            have : bc = (b, bc.2) := by
              rw [Prod.ext_iff]
              exact ⟨hpe.1, rfl⟩
            rw [← this]
            exact hbc
          exact this hgetA
        rw [eraseK_eq_self _ _ hnomem]
        exact ⟨rfl, hg, rfl⟩
      · have hmem := getA_mem b _ c0 hgetA
        have hcgood := hg'.2.2.2.1 (b, c0) hmem
        have ihc := ih r c0 hcgood hkr
        have herase : eraseK (b :: r) (leavesN (d + 1) t)
            = leavesF d (t.children.filter (fun p => decide (p.1 < b))) ++
              shiftKV b (eraseK r (leavesN d c0)) ++
              leavesF d (t.children.filter (fun p => decide (b < p.1))) := by
          rw [leavesN_succ]
          conv_lhs => rw [split_getA_some b t.children c0 hpair hgetA]
          rw [leavesF_append, leavesF_pair_cons]
          rw [eraseK_append, eraseK_append]
          rw [eraseK_eq_self _ _ (not_mem_keys_leavesF_lt d b r t.children)]
          rw [eraseK_eq_self _ _ (not_mem_keys_leavesF_gt d b r t.children)]
          rw [eraseK_shiftKV_same]
          rw [List.append_assoc]
        by_cases hz : (delN d r c0).2 = 0
        · have hstep : delN (d + 1) (b :: r) t = (t, 0) := by
            simp only [delN, hgetA, hz, if_pos]
          rw [hstep]
          have hzleaves : eraseK r (leavesN d c0) = leavesN d c0 := by
            have h1 := ihc.1
            have h3 := ihc.2.2
            rw [hz] at h3
            have hlen : (eraseK r (leavesN d c0)).length = (leavesN d c0).length := by
              omega
            rw [eraseK] at hlen ⊢
            exact List.Sublist.eq_of_length (List.filter_sublist _) hlen
          have : eraseK (b :: r) (leavesN (d + 1) t) = leavesN (d + 1) t := by
            rw [herase, hzleaves]
            conv_rhs =>
              rw [leavesN_succ, split_getA_some b t.children c0 hpair hgetA]
              rw [leavesF_append, leavesF_pair_cons]
            rw [List.append_assoc]
          rw [this]
          exact ⟨rfl, hg, by omega⟩
        · have hstep : delN (d + 1) (b :: r) t =
              (⟨setA b (delN d r c0).1 t.children,
                t.md - (delN d r c0).2, true, t.cached⟩,
               (delN d r c0).2) := by
            simp only [delN, hgetA]
            rw [if_neg hz]
          rw [hstep]
          have ha : leavesF d (setA b (delN d r c0).1 t.children)
              = eraseK (b :: r) (leavesN (d + 1) t) := by
            rw [herase]
            rw [split_setA b _ t.children hpair]
            rw [leavesF_append, leavesF_pair_cons, ihc.1, List.append_assoc]
          have haN : leavesN (d + 1)
              (⟨setA b (delN d r c0).1 t.children,
                t.md - (delN d r c0).2, true, t.cached⟩ : TrieN Nat (d + 1))
              = eraseK (b :: r) (leavesN (d + 1) t) := by
            rw [leavesN_succ]
            exact ha
          have hlen : (leavesN (d + 1) t).length
              = (eraseK (b :: r) (leavesN (d + 1) t)).length + (delN d r c0).2 := by
            rw [herase]
            conv_lhs =>
              rw [leavesN_succ, split_getA_some b t.children c0 hpair hgetA]
              rw [leavesF_append, leavesF_pair_cons]
            simp only [List.length_append, length_shiftKV]
            have := ihc.2.2
            omega
          refine ⟨haN, ?_, hlen⟩
          rw [goodB_succ_iff]
          refine ⟨pairwise_fst_setA b _ t.children hpair, ?_, ?_, ?_, Or.inl rfl⟩
          · intro x hx
            obtain ⟨p, hp, rfl⟩ := List.mem_map.mp hx
            rcases mem_setA _ _ _ _ hp with rfl | hp'
            · exact hg'.2.1 b (List.mem_map_of_mem _ hmem)
            · exact hg'.2.1 p.1 (List.mem_map_of_mem _ hp')
          · show t.md - (delN d r c0).2 = _
            rw [haN, hmdT, hlen]
            omega
          · intro bc hbc
            rcases mem_setA _ _ _ _ hbc with rfl | hbc'
            · exact ihc.2.1
            · exact hg'.2.2.2.1 bc hbc'

/-! #### Get-or-create -/

/-- `get_subnode_ref_and_invalidate_hash` changes no leaf and keeps the
state good (created nodes are empty and dirty). -/
theorem getSubN_spec : ∀ (d : Nat) (p : List Nat) (t : TrieN Nat d),
    goodB d t = true → okNibs p = true → p.length ≤ d →
    leavesN d (getSubN d p t) = leavesN d t ∧
    goodB d (getSubN d p t) = true := by
  intro d
  induction d with
  | zero =>
    intro p t hg _ _
    have hg0 := (goodB_zero_iff t).mp hg
    have hstep : getSubN 0 p t = ⟨t.value, t.md, true, t.cached⟩ := by
      cases p <;> rfl
    rw [hstep]
    refine ⟨rfl, ?_⟩
    rw [goodB_zero_iff]
    exact ⟨hg0.1, Or.inl rfl⟩
  | succ d ih =>
    intro p t hg hnibs hlen
    have hg' := (goodB_succ_iff d t).mp hg
    have hpair := hg'.1
    cases p with
    | nil =>
      refine ⟨rfl, ?_⟩
      rw [goodB_succ_iff]
      exact ⟨hg'.1, hg'.2.1, hg'.2.2.1, hg'.2.2.2.1, Or.inl rfl⟩
    | cons b q =>
      have hb16 : b < 16 := by
        rw [okNibs] at hnibs
        simp [List.all_eq_true] at hnibs
        exact hnibs.1
      have hq : okNibs q = true := by
        rw [okNibs] at hnibs ⊢
        simp [List.all_eq_true] at hnibs ⊢
        exact fun x hx => hnibs.2 x hx
      have hqlen : q.length ≤ d := by
        simp at hlen
        omega
      rcases hgetA : getA b t.children with _ | c0
      · have ihc := ih q (emptyN d) (goodB_emptyN d) hq hqlen
        rw [leaves_emptyN] at ihc
        have hstep : getSubN (d + 1) (b :: q) t =
            ⟨setA b (getSubN d q (emptyN d)) t.children, t.md, true, t.cached⟩ := by
          simp only [getSubN, hgetA, Option.getD_none]
        rw [hstep]
        have ha : leavesF d (setA b (getSubN d q (emptyN d)) t.children)
            = leavesN (d + 1) t := by
          rw [split_setA b _ t.children hpair]
          conv_rhs => rw [leavesN_succ, split_getA_none b t.children hpair hgetA]
          rw [leavesF_append, leavesF_pair_cons, leavesF_append, ihc.1]
          rfl
        refine ⟨ha, ?_⟩
        rw [goodB_succ_iff]
        refine ⟨pairwise_fst_setA b _ t.children hpair, ?_, ?_, ?_, Or.inl rfl⟩
        · intro x hx
          obtain ⟨pp, hp, rfl⟩ := List.mem_map.mp hx
          rcases mem_setA _ _ _ _ hp with rfl | hp'
          · exact hb16
          · exact hg'.2.1 pp.1 (List.mem_map_of_mem _ hp')
        · show t.md = _
          rw [leavesN_succ, ha]
          exact hg'.2.2.1
        · intro bc hbc
          rcases mem_setA _ _ _ _ hbc with rfl | hbc'
          · exact ihc.2
          · exact hg'.2.2.2.1 bc hbc'
      · have hmem := getA_mem b _ c0 hgetA
        have hcgood := hg'.2.2.2.1 (b, c0) hmem
        have ihc := ih q c0 hcgood hq hqlen
        have hstep : getSubN (d + 1) (b :: q) t =
            ⟨setA b (getSubN d q c0) t.children, t.md, true, t.cached⟩ := by
          simp only [getSubN, hgetA, Option.getD_some]
        rw [hstep]
        have ha : leavesF d (setA b (getSubN d q c0) t.children)
            = leavesN (d + 1) t := by
          rw [split_setA b _ t.children hpair]
          conv_rhs => rw [leavesN_succ, split_getA_some b t.children c0 hpair hgetA]
          rw [leavesF_append, leavesF_pair_cons, ihc.1]
          conv_rhs => rw [leavesF_append, leavesF_pair_cons]
        refine ⟨ha, ?_⟩
        rw [goodB_succ_iff]
        refine ⟨pairwise_fst_setA b _ t.children hpair, ?_, ?_, ?_, Or.inl rfl⟩
        · intro x hx
          obtain ⟨pp, hp, rfl⟩ := List.mem_map.mp hx
          rcases mem_setA _ _ _ _ hp with rfl | hp'
          · exact hb16
          · exact hg'.2.1 pp.1 (List.mem_map_of_mem _ hp')
        · show t.md = _
          rw [leavesN_succ, ha]
          exact hg'.2.2.1
        · intro bc hbc
          rcases mem_setA _ _ _ _ hbc with rfl | hbc'
          · exact ihc.2
          · exact hg'.2.2.2.1 bc hbc'

/-! #### Union-fold algebra -/

theorem unionL_nil_right (L : List KV) : unionL L [] = L := rfl

theorem unionL_cons (L : List KV) (c : KV) (C : List KV) :
    unionL L (c :: C) = unionL (insS c.1 c.2 L) C := rfl

theorem unionL_append (L A B : List KV) :
    unionL L (A ++ B) = unionL (unionL L A) B := by
  rw [unionL, unionL, unionL, List.foldl_append]

theorem insS_append_all (k : List Nat) (v : Nat) :
    ∀ M, (∀ q ∈ M, keyLt q.1 k = true) → insS k v M = M ++ [(k, v)] := by
  intro M
  induction M with
  | nil => intro _; rfl
  | cons m M ih =>
    intro hM
    have hm : keyLt m.1 k = true := hM m (by simp)
    rw [insS, if_neg (by simp [keyLt_asymm _ _ hm]),
      if_neg (fun h => (keyLt_ne _ _ hm h.symm).elim),
      ih (fun q hq => hM q (by simp [hq])), List.cons_append]

theorem unionL_keys_sub : ∀ (C M : List KV) (x : List Nat),
    x ∈ (unionL M C).map (fun kv => kv.1) →
      x ∈ M.map (fun kv => kv.1) ∨ x ∈ C.map (fun kv => kv.1) := by
  intro C
  induction C with
  | nil => intro M x hx; exact Or.inl hx
  | cons c C ih =>
    intro M x hx
    rw [unionL_cons] at hx
    rcases ih _ x hx with h | h
    · rcases keys_insS _ _ _ _ h with rfl | h'
      · exact Or.inr (by simp)
      · exact Or.inl h'
    · exact Or.inr (by simp [h])

theorem unionL_append_all : ∀ (C M : List KV), sortedK C →
    (∀ m ∈ M, ∀ c ∈ C, keyLt m.1 c.1 = true) →
    unionL M C = M ++ C := by
  intro C
  induction C with
  | nil => intro M _ _; simp [unionL_nil_right]
  | cons c C ih =>
    intro M hs hMC
    replace hs' := List.pairwise_cons.mp hs
    rw [unionL_cons]
    rw [insS_append_all c.1 c.2 M (fun q hq => hMC q hq c (by simp))]
    rw [ih (M ++ [(c.1, c.2)]) hs'.2 ?_]
    · simp
    · intro m hm c' hc'
      rcases List.mem_append.mp hm with h | h
      · exact hMC m h c' (by simp [hc'])
      · rcases List.mem_singleton.mp h with rfl
        exact hs'.1 c' hc'

theorem unionL_push : ∀ (C A M B : List KV),
    (∀ a ∈ A, ∀ c ∈ C, keyLt a.1 c.1 = true) →
    (∀ c ∈ C, ∀ q ∈ B, keyLt c.1 q.1 = true) →
    (∀ a ∈ A, ∀ m ∈ M, keyLt a.1 m.1 = true) →
    (∀ m ∈ M, ∀ q ∈ B, keyLt m.1 q.1 = true) →
    unionL (A ++ M ++ B) C = A ++ unionL M C ++ B := by
  intro C
  induction C with
  | nil => intro A M B _ _ _ _; rfl
  | cons c C ih =>
    intro A M B hAC hCB hAM hMB
    rw [unionL_cons]
    rw [List.append_assoc]
    rw [insS_append_right _ _ _ _ (fun a ha => hAC a ha c (by simp))]
    rw [insS_append_left _ _ _ _ (fun q hq => hCB c (by simp) q hq)]
    rw [← List.append_assoc]
    rw [ih A (insS c.1 c.2 M) B
      (fun a ha c' hc' => hAC a ha c' (by simp [hc']))
      (fun c' hc' q hq => hCB c' (by simp [hc']) q hq)
      ?_ ?_]
    · rfl
    · intro a ha m hm
      have := keys_insS c.1 c.2 M m.1 (List.mem_map_of_mem _ hm)
      rcases this with heq | hmem
      · rw [heq]
        exact hAC a ha c (by simp)
      · obtain ⟨m', hm', hme⟩ := List.mem_map.mp hmem
        rw [← hme] at *
        exact hAM a ha m' hm'
    · intro m hm q hq
      have := keys_insS c.1 c.2 M m.1 (List.mem_map_of_mem _ hm)
      rcases this with heq | hmem
      · rw [heq]
        exact hCB c (by simp) q hq
      · obtain ⟨m', hm', hme⟩ := List.mem_map.mp hmem
        rw [← hme]
        exact hMB m' hm' q hq

theorem unionL_shiftKV (b : Nat) : ∀ (C M : List KV),
    unionL (shiftKV b M) (shiftKV b C) = shiftKV b (unionL M C) := by
  intro C
  induction C with
  | nil => intro M; rfl
  | cons c C ih =>
    intro M
    show unionL (shiftKV b M) ((b :: c.1, c.2) :: shiftKV b C) = _
    rw [unionL_cons]
    show unionL (insS (b :: c.1) c.2 (shiftKV b M)) (shiftKV b C) = _
    rw [insS_shiftKV, ih]
    rfl

/-! #### Merge -/

/-- The per-child step of `merge_in`: graft a serial child absent from
the accumulator, merge recursively a child present in both, adding the
returned metadata delta. -/
def mergeStep (d : Nat) (acc : List (Nat × TrieN Nat d) × Nat)
    (bc : Nat × TrieN Nat d) : List (Nat × TrieN Nat d) × Nat :=
  match getA bc.1 acc.1 with
  | none => (setA bc.1 bc.2 acc.1, acc.2 + mdN d bc.2)
  | some c =>
    let p := mergeN d c bc.2
    (setA bc.1 p.1 acc.1, acc.2 + p.2)

theorem mergeN_succ_eq (d : Nat) (t o : TrieN Nat (d + 1)) :
    mergeN (d + 1) t o =
      (⟨(o.children.foldl (mergeStep d) (t.children, 0)).1,
        t.md + (o.children.foldl (mergeStep d) (t.children, 0)).2, true, t.cached⟩,
       (o.children.foldl (mergeStep d) (t.children, 0)).2) := rfl

theorem good_md : ∀ (d : Nat) (t : TrieN Nat d),
    goodB d t = true → mdN d t = (leavesN d t).length := by
  intro d
  cases d with
  | zero =>
    intro t hg
    have hg0 := (goodB_zero_iff t).mp hg
    show t.md = _
    rw [hg0.1, leavesN]
    cases t.value <;> rfl
  | succ d =>
    intro t hg
    exact ((goodB_succ_iff d t).mp hg).2.2.1

theorem leavesF_filter_lt_shift (d b : Nat) (ch : List (Nat × TrieN Nat d))
    (G : List KV) :
    ∀ p ∈ leavesF d (ch.filter (fun bc => decide (bc.1 < b))),
      ∀ q ∈ shiftKV b G, keyLt p.1 q.1 = true := by
  intro p hp q hq
  obtain ⟨bc, hbc, kv, _, rfl⟩ := (mem_leavesF _ _ _).mp hp
  obtain ⟨kv', _, rfl⟩ := (mem_shiftKV _ _ _).mp hq
  have hlt : bc.1 < b := by
    have := (List.mem_filter.mp hbc).2
    simpa using this
  exact keyLt_cons_lt hlt _ _

theorem shift_lt_leavesF_filter_gt (d b : Nat) (ch : List (Nat × TrieN Nat d))
    (G : List KV) :
    ∀ p ∈ shiftKV b G,
      ∀ q ∈ leavesF d (ch.filter (fun bc => decide (b < bc.1))),
        keyLt p.1 q.1 = true := by
  intro p hp q hq
  obtain ⟨kv', _, rfl⟩ := (mem_shiftKV _ _ _).mp hp
  obtain ⟨bc, hbc, kv, _, rfl⟩ := (mem_leavesF _ _ _).mp hq
  have hlt : b < bc.1 := by
    have := (List.mem_filter.mp hbc).2
    simpa using this
  exact keyLt_cons_lt hlt _ _

/-- `merge_in` refines right-biased union of the sorted leaf lists (the
serial trie's value wins on collisions, through `OverwriteMergeFn`):
goodness is preserved and the returned metadata delta accounts for the
change in leaf count. -/
theorem mergeN_spec : ∀ (d : Nat) (t o : TrieN Nat d),
    goodB d t = true → goodB d o = true →
    leavesN d (mergeN d t o).1 = unionL (leavesN d t) (leavesN d o) ∧
    goodB d (mergeN d t o).1 = true ∧
    (leavesN d t).length + (mergeN d t o).2
      = (unionL (leavesN d t) (leavesN d o)).length := by
  intro d
  induction d with
  | zero =>
    intro t o hgt hgo
    have hgt0 := (goodB_zero_iff t).mp hgt
    have hgo0 := (goodB_zero_iff o).mp hgo
    cases hov : o.value with
    | none =>
      have hstep : mergeN 0 t o = (t, 0) := by
        simp only [mergeN, hov]
      rw [hstep]
      have hlo : leavesN 0 o = [] := by
        rw [leavesN, hov]
      rw [hlo]
      refine ⟨rfl, hgt, ?_⟩
      rw [unionL_nil_right]
      show (leavesN 0 t).length + 0 = (leavesN 0 t).length
      omega
    | some v =>
      have homd : o.md = 1 := by
        rw [hgo0.1, hov]
        rfl
      have hstep : mergeN 0 t o = (⟨some v, o.md, true, t.cached⟩, o.md - t.md) := by
        simp only [mergeN, hov]
      rw [hstep]
      have hlo : leavesN 0 o = [([], v)] := by
        rw [leavesN, hov]
      rw [hlo]
      cases htv : t.value with
      | none =>
        have htmd : t.md = 0 := by
          rw [hgt0.1, htv]
          rfl
        have hlt : leavesN 0 t = [] := by
          rw [leavesN, htv]
        rw [hlt]
        refine ⟨?_, ?_, ?_⟩
        · rw [leavesN]
          rfl
        · rw [goodB_zero_iff]
          rw [homd]
          exact ⟨rfl, Or.inl rfl⟩
        · rw [homd, htmd]
          rfl
      | some w =>
        have htmd : t.md = 1 := by
          rw [hgt0.1, htv]
          rfl
        have hlt : leavesN 0 t = [([], w)] := by
          rw [leavesN, htv]
        rw [hlt]
        refine ⟨?_, ?_, ?_⟩
        · rw [leavesN]
          show [([], v)] = unionL [([], w)] [([], v)]
          rw [unionL_cons, unionL_nil_right, insS,
            if_neg (by rw [keyLt_irrefl]; simp), if_pos rfl]
        · rw [goodB_zero_iff]
          rw [homd]
          exact ⟨rfl, Or.inl rfl⟩
        · rw [homd, htmd]
          rw [unionL_cons, unionL_nil_right, insS,
            if_neg (by rw [keyLt_irrefl]; simp), if_pos rfl]
          rfl
  | succ d ih =>
    intro t o hgt hgo
    have hgt' := (goodB_succ_iff d t).mp hgt
    have hgo' := (goodB_succ_iff d o).mp hgo
    have inner : ∀ (ocs acc : List (Nat × TrieN Nat d)) (n : Nat),
        List.Pairwise (· < ·) (acc.map (fun p => p.1)) →
        (∀ x ∈ acc.map (fun p => p.1), x < 16) →
        (∀ bc ∈ acc, goodB d bc.2 = true) →
        (∀ bc ∈ ocs, bc.1 < 16 ∧ goodB d bc.2 = true) →
        leavesF d (ocs.foldl (mergeStep d) (acc, n)).1
            = unionL (leavesF d acc) (leavesF d ocs) ∧
        List.Pairwise (· < ·)
          ((ocs.foldl (mergeStep d) (acc, n)).1.map (fun p => p.1)) ∧
        (∀ x ∈ (ocs.foldl (mergeStep d) (acc, n)).1.map (fun p => p.1), x < 16) ∧
        (∀ bc ∈ (ocs.foldl (mergeStep d) (acc, n)).1, goodB d bc.2 = true) ∧
        (leavesF d acc).length + (ocs.foldl (mergeStep d) (acc, n)).2
            = n + (unionL (leavesF d acc) (leavesF d ocs)).length := by
      intro ocs
      induction ocs with
      | nil =>
        intro acc n h1 h2 h3 _
        refine ⟨rfl, h1, h2, h3, ?_⟩
        rw [leavesF_nil, unionL_nil_right]
        show (leavesF d acc).length + n = n + (leavesF d acc).length
        omega
      | cons oc ocs ihL =>
        intro acc n h1 h2 h3 h4
        obtain ⟨hoc16, hocg⟩ := h4 oc (by simp)
        have hGsorted : sortedK (shiftKV oc.1 (leavesN d oc.2)) :=
          shiftKV_sorted _ _ (good_sorted d oc.2 hocg)
        rw [List.foldl_cons]
        rcases hgetA : getA oc.1 acc with _ | c
        · -- graft: branch absent from the accumulator
          have hstep : mergeStep d (acc, n) oc
              = (setA oc.1 oc.2 acc, n + mdN d oc.2) := by
            simp only [mergeStep, hgetA]
          rw [hstep]
          have hpush := unionL_push (shiftKV oc.1 (leavesN d oc.2))
            (leavesF d (acc.filter (fun p => decide (p.1 < oc.1)))) []
            (leavesF d (acc.filter (fun p => decide (oc.1 < p.1))))
            (leavesF_filter_lt_shift d oc.1 acc (leavesN d oc.2))
            (shift_lt_leavesF_filter_gt d oc.1 acc (leavesN d oc.2))
            (by intro a _ m hm; cases hm)
            (by intro m hm; cases hm)
          simp only [List.append_nil] at hpush
          have hunil : unionL [] (shiftKV oc.1 (leavesN d oc.2))
              = shiftKV oc.1 (leavesN d oc.2) := by
            rw [unionL_append_all _ _ hGsorted (by intro m hm; cases hm)]
            rfl
          rw [hunil] at hpush
          have hstepL : leavesF d (setA oc.1 oc.2 acc)
              = unionL (leavesF d acc) (shiftKV oc.1 (leavesN d oc.2)) := by
            rw [split_setA oc.1 _ acc h1]
            conv_rhs => rw [split_getA_none oc.1 acc h1 hgetA]
            rw [leavesF_append, leavesF_pair_cons, leavesF_append]
            rw [← List.append_assoc]
            rw [hpush]
          have hstepLen : (leavesF d acc).length + (n + mdN d oc.2)
              = n + (unionL (leavesF d acc)
                  (shiftKV oc.1 (leavesN d oc.2))).length := by
            conv_lhs => rw [split_getA_none oc.1 acc h1 hgetA]
            conv_rhs => rw [split_getA_none oc.1 acc h1 hgetA]
            rw [leavesF_append, hpush]
            rw [good_md d oc.2 hocg]
            simp only [List.length_append, length_shiftKV]
            omega
          have h1' := pairwise_fst_setA oc.1 oc.2 acc h1
          have h2' : ∀ x ∈ (setA oc.1 oc.2 acc).map (fun p => p.1), x < 16 := by
            intro x hx
            obtain ⟨p, hp, rfl⟩ := List.mem_map.mp hx
            rcases mem_setA _ _ _ _ hp with rfl | hp'
            · exact hoc16
            · exact h2 p.1 (List.mem_map_of_mem _ hp')
          have h3' : ∀ bc ∈ setA oc.1 oc.2 acc, goodB d bc.2 = true := by
            intro bc hbc
            rcases mem_setA _ _ _ _ hbc with rfl | hbc'
            · exact hocg
            · exact h3 bc hbc'
          have hrec := ihL (setA oc.1 oc.2 acc) (n + mdN d oc.2) h1' h2' h3'
            (fun bc hbc => h4 bc (by simp [hbc]))
          refine ⟨?_, hrec.2.1, hrec.2.2.1, hrec.2.2.2.1, ?_⟩
          · rw [hrec.1, hstepL, leavesF_cons, unionL_append]
          · have hlen1 := hrec.2.2.2.2
            rw [hstepL] at hlen1
            rw [leavesF_cons, unionL_append]
            omega
        · -- both sides present: recursive merge
          have hmem := getA_mem oc.1 _ c hgetA
          have hcg := h3 (oc.1, c) hmem
          have ihc := ih c oc.2 hcg hocg
          have hstep : mergeStep d (acc, n) oc
              = (setA oc.1 (mergeN d c oc.2).1 acc, n + (mergeN d c oc.2).2) := by
            simp only [mergeStep, hgetA]
          rw [hstep]
          have hpush := unionL_push (shiftKV oc.1 (leavesN d oc.2))
            (leavesF d (acc.filter (fun p => decide (p.1 < oc.1))))
            (shiftKV oc.1 (leavesN d c))
            (leavesF d (acc.filter (fun p => decide (oc.1 < p.1))))
            (leavesF_filter_lt_shift d oc.1 acc (leavesN d oc.2))
            (shift_lt_leavesF_filter_gt d oc.1 acc (leavesN d oc.2))
            (leavesF_filter_lt_shift d oc.1 acc (leavesN d c))
            (shift_lt_leavesF_filter_gt d oc.1 acc (leavesN d c))
          rw [unionL_shiftKV] at hpush
          have hstepL : leavesF d (setA oc.1 (mergeN d c oc.2).1 acc)
              = unionL (leavesF d acc) (shiftKV oc.1 (leavesN d oc.2)) := by
            rw [split_setA oc.1 _ acc h1]
            conv_rhs => rw [split_getA_some oc.1 acc c h1 hgetA]
            rw [leavesF_append, leavesF_pair_cons]
            conv_rhs => rw [leavesF_append, leavesF_pair_cons]
            rw [← List.append_assoc]
            conv_rhs => rw [← List.append_assoc]
            rw [hpush, ihc.1]
          have hstepLen : (leavesF d acc).length + (n + (mergeN d c oc.2).2)
              = n + (unionL (leavesF d acc)
                  (shiftKV oc.1 (leavesN d oc.2))).length := by
            conv_lhs => rw [split_getA_some oc.1 acc c h1 hgetA]
            conv_rhs => rw [split_getA_some oc.1 acc c h1 hgetA]
            rw [leavesF_append, leavesF_pair_cons]
            conv_rhs => rw [← List.append_assoc]
            rw [hpush]
            simp only [List.length_append, length_shiftKV]
            have := ihc.2.2
            omega
          have h1' := pairwise_fst_setA oc.1 (mergeN d c oc.2).1 acc h1
          have h2' : ∀ x ∈ (setA oc.1 (mergeN d c oc.2).1 acc).map
              (fun p => p.1), x < 16 := by
            intro x hx
            obtain ⟨p, hp, rfl⟩ := List.mem_map.mp hx
            rcases mem_setA _ _ _ _ hp with rfl | hp'
            · exact hoc16
            · exact h2 p.1 (List.mem_map_of_mem _ hp')
          have h3' : ∀ bc ∈ setA oc.1 (mergeN d c oc.2).1 acc,
              goodB d bc.2 = true := by
            intro bc hbc
            rcases mem_setA _ _ _ _ hbc with rfl | hbc'
            · exact ihc.2.1
            · exact h3 bc hbc'
          have hrec := ihL (setA oc.1 (mergeN d c oc.2).1 acc)
            (n + (mergeN d c oc.2).2) h1' h2' h3'
            (fun bc hbc => h4 bc (by simp [hbc]))
          refine ⟨?_, hrec.2.1, hrec.2.2.1, hrec.2.2.2.1, ?_⟩
          · rw [hrec.1, hstepL, leavesF_cons, unionL_append]
          · have hlen1 := hrec.2.2.2.2
            rw [hstepL] at hlen1
            rw [leavesF_cons, unionL_append]
            omega
    have hocs : ∀ bc ∈ o.children, bc.1 < 16 ∧ goodB d bc.2 = true := by
      intro bc hbc
      exact ⟨hgo'.2.1 bc.1 (List.mem_map_of_mem _ hbc), hgo'.2.2.2.1 bc hbc⟩
    have hres := inner o.children t.children 0 hgt'.1 hgt'.2.1 hgt'.2.2.2.1 hocs
    rw [mergeN_succ_eq]
    refine ⟨?_, ?_, ?_⟩
    · rw [leavesN_succ]
      show leavesF d (o.children.foldl (mergeStep d) (t.children, 0)).1 = _
      rw [hres.1, leavesN_succ, leavesN_succ]
    · rw [goodB_succ_iff]
      refine ⟨hres.2.1, hres.2.2.1, ?_, hres.2.2.2.1, Or.inl rfl⟩
      show t.md + (o.children.foldl (mergeStep d) (t.children, 0)).2 = _
      rw [leavesN_succ]
      show _ = (leavesF d (o.children.foldl (mergeStep d) (t.children, 0)).1).length
      rw [hres.1]
      have := hres.2.2.2.2
      have hmd := hgt'.2.2.1
      rw [leavesN_succ] at hmd
      omega
    · show (leavesN (d + 1) t).length +
          (o.children.foldl (mergeStep d) (t.children, 0)).2 = _
      have := hres.2.2.2.2
      rw [leavesN_succ, leavesN_succ]
      omega

/-! #### Canonicalization: normalized tries are the canonical build -/

theorem groupB_append (b : Nat) (A B : List KV) :
    groupB b (A ++ B) = groupB b A ++ groupB b B := by
  rw [groupB, groupB, groupB, List.filterMap_append]

theorem groupB_shift_same (b : Nat) (G : List KV) :
    groupB b (shiftKV b G) = G := by
  induction G with
  | nil => rfl
  | cons kv G ih =>
    show groupB b ((b :: kv.1, kv.2) :: shiftKV b G) = kv :: G
    rw [groupB, List.filterMap_cons_some]
    · rw [groupB] at ih
      rw [ih]
    · simp

theorem groupB_shift_ne (b b' : Nat) (hne : b' ≠ b) (G : List KV) :
    groupB b (shiftKV b' G) = [] := by
  induction G with
  | nil => rfl
  | cons kv G ih =>
    show groupB b ((b' :: kv.1, kv.2) :: shiftKV b' G) = []
    rw [groupB, List.filterMap_cons_none]
    · rw [groupB] at ih
      rw [ih]
    · simp [hne]

theorem groupB_leavesF_none (d b : Nat) :
    ∀ ch : List (Nat × TrieN Nat d), (∀ bc ∈ ch, bc.1 ≠ b) →
      groupB b (leavesF d ch) = [] := by
  intro ch
  induction ch with
  | nil => intro _; rfl
  | cons bc ch ih =>
    intro h
    rw [leavesF_cons, groupB_append, groupB_shift_ne b bc.1 (h bc (by simp)),
      ih (fun x hx => h x (by simp [hx])), List.append_nil]

theorem groupB_leavesF (d b : Nat) :
    ∀ ch : List (Nat × TrieN Nat d),
      List.Pairwise (· < ·) (ch.map (fun p => p.1)) →
      groupB b (leavesF d ch) =
        (match getA b ch with
          | some c => leavesN d c
          | none => []) := by
  intro ch
  induction ch with
  | nil => intro _; rfl
  | cons bc ch ih =>
    intro hp
    rw [List.map_cons, List.pairwise_cons] at hp
    have hrest : ∀ q ∈ ch, bc.1 < q.1 :=
      fun q hq => hp.1 q.1 (List.mem_map_of_mem _ hq)
    rw [leavesF_cons, groupB_append]
    by_cases h1 : bc.1 = b
    · rw [h1, groupB_shift_same]
      rw [groupB_leavesF_none d b ch (fun x hx => by have := hrest x hx; omega)]
      rw [List.append_nil, getA, if_pos h1]
    · rw [groupB_shift_ne b bc.1 h1, List.nil_append, ih hp.2, getA, if_neg h1]

/-- Point-lookup view of a per-branch computation: apply `F` at branch `b`
when the sorted association list `l` has a child there. -/
def childCase {α β : Type} (F : Nat → α → Option β) (l : List (Nat × α)) (b : Nat) :
    Option β :=
  match getA b l with
  | some c => F b c
  | none => none

theorem rangeAssoc {α β : Type} (F : Nat → α → Option β) :
    ∀ (m s : Nat) (l : List (Nat × α)),
      List.Pairwise (· < ·) (l.map (fun p => p.1)) →
      (∀ p ∈ l, s ≤ p.1 ∧ p.1 < s + m) →
      (List.range' s m).filterMap (childCase F l)
        = l.filterMap (fun bc => F bc.1 bc.2) := by
  intro m
  induction m with
  | zero =>
    intro s l _ hb
    cases l with
    | nil => rfl
    | cons p l =>
      have := hb p (by simp)
      omega
  | succ m ih =>
    intro s l hp hb
    rw [List.range'_succ]
    cases l with
    | nil =>
      rw [List.filterMap_cons_none (by simp only [childCase, getA])]
      rw [ih (s + 1) [] List.Pairwise.nil (by intro p hp'; cases hp')]
    | cons p l =>
      rw [List.map_cons, List.pairwise_cons] at hp
      have hrest : ∀ q ∈ l, p.1 < q.1 :=
        fun q hq => hp.1 q.1 (List.mem_map_of_mem _ hq)
      have hsp := hb p (by simp)
      by_cases h1 : p.1 = s
      · have hgs : getA s (p :: l) = some p.2 := by
          rw [getA, if_pos h1]
        have htail : (List.range' (s + 1) m).filterMap (childCase F (p :: l))
            = (List.range' (s + 1) m).filterMap (childCase F l) := by
          apply List.filterMap_congr
          intro b hbmem
          have hbge : s + 1 ≤ b := by
            rw [List.mem_range'] at hbmem
            obtain ⟨i, _, rfl⟩ := hbmem
            omega
          simp only [childCase]
          rw [getA, if_neg (by omega)]
        have hrec := ih (s + 1) l hp.2
          (fun q hq => ⟨by have := hrest q hq; omega, by have := (hb q (by simp [hq])).2; omega⟩)
        cases hF : F s p.2 with
        | none =>
          rw [List.filterMap_cons_none (by simp only [childCase, hgs, hF])]
          rw [htail, hrec]
          rw [List.filterMap_cons_none (by rw [← h1] at hF; simpa using hF)]
        | some y =>
          rw [List.filterMap_cons_some
            (show childCase F (p :: l) s = some y by simp only [childCase, hgs, hF])]
          rw [htail, hrec]
          rw [List.filterMap_cons_some (by rw [← h1] at hF; simpa using hF)]
      · have hgs : getA s (p :: l) = none := by
          apply getA_none
          intro q hq
          rcases List.mem_cons.mp hq with rfl | hq'
          · omega
          · have := hrest q hq'
            omega
        rw [List.filterMap_cons_none (by simp only [childCase, hgs])]
        exact ih (s + 1) (p :: l) (by rw [List.map_cons, List.pairwise_cons]; exact hp)
          (fun q hq => ⟨by
              rcases List.mem_cons.mp hq with rfl | hq'
              · omega
              · have := hrest q hq'
                omega,
            by have := (hb q hq).2; omega⟩)

theorem buildC_children_eq (d : Nat) (ch : List (Nat × TrieN Nat d))
    (hpair : List.Pairwise (· < ·) (ch.map (fun p => p.1)))
    (h16 : ∀ b ∈ ch.map (fun p => p.1), b < 16) :
    ((List.range 16).filterMap (fun b =>
        if (groupB b (leavesF d ch)).isEmpty then none
        else some (b, buildC d (groupB b (leavesF d ch)))))
      = ch.filterMap (fun bc =>
          if (leavesN d bc.2).isEmpty then none
          else some (bc.1, buildC d (leavesN d bc.2))) := by
  rw [List.range_eq_range']
  have hcongr : ∀ b ∈ List.range' 0 16,
      (if (groupB b (leavesF d ch)).isEmpty then none
        else some (b, buildC d (groupB b (leavesF d ch))))
      = childCase
          (fun b c => if (leavesN d c).isEmpty then none
            else some (b, buildC d (leavesN d c))) ch b := by
    intro b _
    rw [groupB_leavesF d b ch hpair]
    cases hg : getA b ch with
    | none => simp [childCase, hg]
    | some c => simp [childCase, hg]
  rw [List.filterMap_congr hcongr]
  exact rangeAssoc
    (fun b c => if (leavesN d c).isEmpty then none
      else some (b, buildC d (leavesN d c)))
    16 0 ch hpair
    (fun p hp => ⟨Nat.zero_le _, by have := h16 p.1 (List.mem_map_of_mem _ hp); omega⟩)

theorem normal_leaves_nil_iff : ∀ (d : Nat) (t : TrieN Nat d),
    isNormalB d t = true → (leavesN d t = [] ↔ isEmptyB d t = true) := by
  intro d
  induction d with
  | zero =>
    intro t _
    rw [leavesN, isEmptyB]
    cases t.value <;> simp
  | succ d ih =>
    intro t hn
    have hn' := (isNormalB_succ_iff d t).mp hn
    rw [leavesN_succ, isEmptyB]
    constructor
    · intro hnil
      cases hch : t.children with
      | nil => rfl
      | cons bc ch =>
        exfalso
        rw [hch, leavesF_cons] at hnil
        have hbc := hn'.2.2.2.2.2 bc (by rw [hch]; simp)
        have hleav : leavesN d bc.2 ≠ [] := by
          intro hl
          have := (ih bc.2 hbc.1).mp hl
          rw [this] at hbc
          simpa using hbc.2
        have : shiftKV bc.1 (leavesN d bc.2) ≠ [] := by
          rw [shiftKV]
          intro hmap
          exact hleav (List.map_eq_nil_iff.mp hmap)
        rcases List.append_eq_nil.mp hnil with ⟨h1, _⟩
        exact this h1
    · intro hempty
      have : t.children = [] := by
        simpa using hempty
      rw [this]
      rfl

/-- A fully normalized node is exactly the canonical build of its own
leaf list. -/
theorem isNormal_eq_buildC : ∀ (d : Nat) (t : TrieN Nat d),
    isNormalB d t = true → t = buildC d (leavesN d t) := by
  intro d
  induction d with
  | zero =>
    intro t hn
    have hn' := (isNormalB_zero_iff t).mp hn
    cases htv : t.value with
    | none =>
      have hmd : t.md = 0 := by
        rw [hn'.2.2, htv]
        rfl
      have hleaves : leavesN 0 t = [] := by
        rw [leavesN, htv]
      rw [hleaves, buildC]
      have hcache := hn'.2.1
      rw [htv, hmd] at hcache
      rw [LeafF.mk.injEq]
      exact ⟨htv, hmd, hn'.1, hcache⟩
    | some v =>
      have hmd : t.md = 1 := by
        rw [hn'.2.2, htv]
        rfl
      have hleaves : leavesN 0 t = [([], v)] := by
        rw [leavesN, htv]
      rw [hleaves, buildC]
      have hcache := hn'.2.1
      rw [htv, hmd] at hcache
      rw [LeafF.mk.injEq]
      exact ⟨htv, hmd, hn'.1, hcache⟩
  | succ d ih =>
    intro t hn
    have hn' := (isNormalB_succ_iff d t).mp hn
    have hchildren :
        t.children.filterMap (fun bc =>
          if (leavesN d bc.2).isEmpty then none
          else some (bc.1, buildC d (leavesN d bc.2)))
        = t.children := by
      have : ∀ bc ∈ t.children,
          (if (leavesN d bc.2).isEmpty then none
            else some (bc.1, buildC d (leavesN d bc.2))) = some bc := by
        intro bc hbc
        have hbcn := hn'.2.2.2.2.2 bc hbc
        have hne : (leavesN d bc.2).isEmpty = false := by
          rw [List.isEmpty_eq_false_iff_exists_mem]
          cases hl : leavesN d bc.2 with
          | nil =>
            exfalso
            have := (normal_leaves_nil_iff d bc.2 hbcn.1).mp hl
            rw [this] at hbcn
            simpa using hbcn.2
          | cons kv l => exact ⟨kv, by simp⟩
        rw [hne]
        simp only [Bool.false_eq_true, if_false]
        rw [← ih bc.2 hbcn.1]
      rw [List.filterMap_congr this]
      exact List.filterMap_some t.children
    rw [leavesN_succ, buildC]
    rw [buildC_children_eq d t.children hn'.2.2.1 hn'.2.2.2.1]
    rw [hchildren]
    rw [NodeF.mk.injEq]
    refine ⟨rfl, ?_, hn'.1, ?_⟩
    · have := hn'.2.2.2.2.1
      rw [leavesN_succ] at this
      exact this
    · have hc := hn'.2.1
      rw [computeHashN] at hc
      exact hc


/-! #### Normalization computes the canonical form -/

theorem empty_leaves_nil : ∀ (d : Nat) (t : TrieN Nat d),
    isEmptyB d t = true → leavesN d t = [] := by
  intro d
  cases d with
  | zero =>
    intro t h
    rw [isEmptyB] at h
    rw [leavesN, Option.isNone_iff_eq_none.mp h]
  | succ d =>
    intro t h
    rw [isEmptyB] at h
    rw [leavesN_succ, List.isEmpty_iff.mp h]
    rfl

theorem pruneN_succ (d : Nat) (t : TrieN Nat (d + 1)) :
    pruneN (d + 1) t =
      ⟨t.children.filterMap
          (fun bc =>
            if isEmptyB d (pruneN d bc.2) then none
            else some (bc.1, pruneN d bc.2)),
        t.md, t.dirty, t.cached⟩ := rfl

theorem leavesF_eq_nil_iff (d : Nat) :
    ∀ ch : List (Nat × TrieN Nat d),
      leavesF d ch = [] ↔ ∀ bc ∈ ch, leavesN d bc.2 = [] := by
  intro ch
  induction ch with
  | nil => simp [leavesF_nil]
  | cons bc ch ih =>
    rw [leavesF_cons, List.append_eq_nil, ih]
    constructor
    · rintro ⟨h1, h2⟩ x hx
      rcases List.mem_cons.mp hx with rfl | hx'
      · exact List.map_eq_nil_iff.mp (by rw [shiftKV] at h1; exact h1)
      · exact h2 x hx'
    · intro h
      refine ⟨?_, fun x hx => h x (List.mem_cons_of_mem _ hx)⟩
      rw [shiftKV, h bc (List.mem_cons_self _ _), List.map_nil]

theorem prune_empty_iff : ∀ (d : Nat) (t : TrieN Nat d),
    (isEmptyB d (pruneN d t) = true ↔ leavesN d t = []) := by
  intro d
  induction d with
  | zero =>
    intro t
    rw [pruneN, isEmptyB, leavesN]
    cases t.value <;> simp
  | succ d ih =>
    intro t
    have hiso : isEmptyB (d + 1) (pruneN (d + 1) t) = true ↔
        ∀ bc ∈ t.children,
          (if isEmptyB d (pruneN d bc.2) then none
            else some (bc.1, pruneN d bc.2)) = none := by
      rw [pruneN_succ, isEmptyB, List.isEmpty_iff]
      exact List.filterMap_eq_nil_iff
    rw [hiso, leavesN_succ, leavesF_eq_nil_iff]
    constructor
    · intro h bc hbc
      have hkey := h bc hbc
      by_cases hc : isEmptyB d (pruneN d bc.2) = true
      · exact (ih bc.2).mp hc
      · rw [if_neg hc] at hkey
        cases hkey
    · intro h bc hbc
      rw [if_pos ((ih bc.2).mpr (h bc hbc))]

theorem prune_leaves : ∀ (d : Nat) (t : TrieN Nat d),
    leavesN d (pruneN d t) = leavesN d t := by
  intro d
  induction d with
  | zero => intro t; rw [pruneN]
  | succ d ih =>
    intro t
    rw [pruneN_succ, leavesN_succ, leavesN_succ]
    show leavesF d (t.children.filterMap _) = leavesF d t.children
    induction t.children with
    | nil => rfl
    | cons bc ch ihc =>
      by_cases hc : isEmptyB d (pruneN d bc.2) = true
      · rw [List.filterMap_cons_none (by rw [if_pos hc])]
        rw [ihc, leavesF_cons, (prune_empty_iff d bc.2).mp hc, shiftKV,
          List.map_nil, List.nil_append]
      · rw [List.filterMap_cons_some (by rw [if_neg hc])]
        rw [leavesF_cons, leavesF_cons, ihc, ih bc.2]

theorem prune_isNormal : ∀ (d : Nat) (t : TrieN Nat d),
    isNormalB d t = true → pruneN d t = t := by
  intro d
  induction d with
  | zero => intro t _; rw [pruneN]
  | succ d ih =>
    intro t hn
    have hn' := (isNormalB_succ_iff d t).mp hn
    rw [pruneN_succ]
    have hpt : ∀ bc ∈ t.children,
        (if isEmptyB d (pruneN d bc.2) then none
          else some (bc.1, pruneN d bc.2)) = some bc := by
      intro bc hbc
      have h2 := hn'.2.2.2.2.2 bc hbc
      rw [ih bc.2 h2.1, if_neg (by rw [h2.2]; simp)]
    rw [List.filterMap_congr hpt]
    have he : List.filterMap (fun bc => some bc) t.children = t.children :=
      List.filterMap_some t.children
    rw [he]

theorem hashPassN_zero_clean (t : TrieN Nat 0) (h : Nat) (hd : t.dirty = false)
    (hc : t.cached = some h) :
    hashPassN 0 t = (t, h) := by
  obtain ⟨v, m, dr, ca⟩ := t
  cases dr with
  | true => exact Bool.noConfusion hd
  | false =>
    cases ca with
    | none => exact Option.noConfusion hc
    | some h0 =>
      have he : h0 = h := by simpa using hc
      subst he
      rfl

theorem hashPassN_zero_dirty (t : TrieN Nat 0) (hd : t.dirty = true) :
    hashPassN 0 t =
      (⟨t.value, t.md, false, some (leafHash t.value t.md)⟩,
        leafHash t.value t.md) := by
  obtain ⟨v, m, dr, ca⟩ := t
  cases dr with
  | false => exact Bool.noConfusion hd
  | true => rfl

theorem hashPassN_succ_clean (d : Nat) (t : TrieN Nat (d + 1)) (h : Nat)
    (hd : t.dirty = false) (hc : t.cached = some h) :
    hashPassN (d + 1) t = (t, h) := by
  obtain ⟨ch, m, dr, ca⟩ := t
  cases dr with
  | true => exact Bool.noConfusion hd
  | false =>
    cases ca with
    | none => exact Option.noConfusion hc
    | some h0 =>
      have he : h0 = h := by simpa using hc
      subst he
      rfl

theorem hashPassN_succ_dirty (d : Nat) (t : TrieN Nat (d + 1)) (hd : t.dirty = true) :
    hashPassN (d + 1) t =
      (⟨(t.children.map (fun bc => (bc.1, hashPassN d bc.2))).map (fun x => (x.1, x.2.1)),
          t.md, false,
          some (nodeHash
            (bitmapOf ((t.children.map (fun bc => (bc.1, hashPassN d bc.2))).map
              (fun x => (x.1, x.2.1))))
            ((t.children.map (fun bc => (bc.1, hashPassN d bc.2))).map (fun x => x.2.2)))⟩,
        nodeHash
          (bitmapOf ((t.children.map (fun bc => (bc.1, hashPassN d bc.2))).map
            (fun x => (x.1, x.2.1))))
          ((t.children.map (fun bc => (bc.1, hashPassN d bc.2))).map (fun x => x.2.2))) := by
  obtain ⟨ch, m, dr, ca⟩ := t
  cases dr with
  | false => exact Bool.noConfusion hd
  | true => rfl

theorem buildC_succ (d : Nat) (l : List KV) :
    buildC (d + 1) l =
      ⟨(List.range 16).filterMap (fun b =>
          if (groupB b l).isEmpty then none else some (b, buildC d (groupB b l))),
        l.length, false,
        some (nodeHash
          (bitmapOf ((List.range 16).filterMap (fun b =>
            if (groupB b l).isEmpty then none else some (b, buildC d (groupB b l)))))
          (((List.range 16).filterMap (fun b =>
            if (groupB b l).isEmpty then none else some (b, buildC d (groupB b l)))).map
              (fun bc => computeHashN d bc.2)))⟩ := rfl

theorem computeHash_buildC_succ (d : Nat) (l : List KV) :
    computeHashN (d + 1) (buildC (d + 1) l) =
      nodeHash
        (bitmapOf ((List.range 16).filterMap (fun b =>
          if (groupB b l).isEmpty then none else some (b, buildC d (groupB b l)))))
        (((List.range 16).filterMap (fun b =>
          if (groupB b l).isEmpty then none else some (b, buildC d (groupB b l)))).map
            (fun bc => computeHashN d bc.2)) := rfl

theorem hashPass_prune_children (d : Nat)
    (hih : ∀ c : TrieN Nat d, goodB d c = true →
      hashPassN d (pruneN d c) =
        (buildC d (leavesN d c), computeHashN d (buildC d (leavesN d c)))) :
    ∀ ch : List (Nat × TrieN Nat d), (∀ bc ∈ ch, goodB d bc.2 = true) →
      (ch.filterMap (fun bc =>
          if isEmptyB d (pruneN d bc.2) then none
          else some (bc.1, pruneN d bc.2))).map (fun bc => (bc.1, hashPassN d bc.2))
        = ch.filterMap (fun bc =>
            if (leavesN d bc.2).isEmpty then none
            else some (bc.1, (buildC d (leavesN d bc.2),
              computeHashN d (buildC d (leavesN d bc.2))))) := by
  intro ch
  induction ch with
  | nil => intro _; rfl
  | cons bc ch ihc =>
    intro hg
    have hgbc := hg bc (List.mem_cons_self _ _)
    have hrest := fun x hx => hg x (List.mem_cons_of_mem _ hx)
    by_cases hc : isEmptyB d (pruneN d bc.2) = true
    · have hnil : leavesN d bc.2 = [] := (prune_empty_iff d bc.2).mp hc
      rw [List.filterMap_cons_none (by rw [if_pos hc])]
      rw [List.filterMap_cons_none (by rw [hnil]; rfl)]
      exact ihc hrest
    · have hnnil : ¬((leavesN d bc.2).isEmpty = true) := by
        rw [List.isEmpty_iff]
        intro hn
        exact hc ((prune_empty_iff d bc.2).mpr hn)
      rw [List.filterMap_cons_some (by rw [if_neg hc])]
      rw [List.map_cons, ihc hrest, hih bc.2 hgbc]
      rw [List.filterMap_cons_some (by rw [if_neg hnnil])]

theorem filterMap_pair_fst (d : Nat) :
    ∀ ch : List (Nat × TrieN Nat d),
      ((ch.filterMap (fun bc =>
          if (leavesN d bc.2).isEmpty then none
          else some (bc.1, (buildC d (leavesN d bc.2),
            computeHashN d (buildC d (leavesN d bc.2)))))).map (fun x => (x.1, x.2.1)))
        = ch.filterMap (fun bc =>
            if (leavesN d bc.2).isEmpty then none
            else some (bc.1, buildC d (leavesN d bc.2))) := by
  intro ch
  induction ch with
  | nil => rfl
  | cons bc ch ihc =>
    by_cases hc : (leavesN d bc.2).isEmpty = true
    · rw [List.filterMap_cons_none (by rw [if_pos hc]),
        List.filterMap_cons_none (by rw [if_pos hc]), ihc]
    · rw [List.filterMap_cons_some (by rw [if_neg hc]), List.map_cons,
        List.filterMap_cons_some (by rw [if_neg hc]), ihc]

theorem filterMap_pair_snd (d : Nat) :
    ∀ ch : List (Nat × TrieN Nat d),
      ((ch.filterMap (fun bc =>
          if (leavesN d bc.2).isEmpty then none
          else some (bc.1, (buildC d (leavesN d bc.2),
            computeHashN d (buildC d (leavesN d bc.2)))))).map (fun x => x.2.2))
        = (ch.filterMap (fun bc =>
            if (leavesN d bc.2).isEmpty then none
            else some (bc.1, buildC d (leavesN d bc.2)))).map
              (fun bc => computeHashN d bc.2) := by
  intro ch
  induction ch with
  | nil => rfl
  | cons bc ch ihc =>
    by_cases hc : (leavesN d bc.2).isEmpty = true
    · rw [List.filterMap_cons_none (by rw [if_pos hc]),
        List.filterMap_cons_none (by rw [if_pos hc]), ihc]
    · rw [List.filterMap_cons_some (by rw [if_neg hc]), List.map_cons,
        List.filterMap_cons_some (by rw [if_neg hc]), List.map_cons, ihc]

/-- Normalization of any reachable (good) state yields the canonical
node of its key/value content, together with that node's content
hash. -/
theorem normN_good : ∀ (d : Nat) (t : TrieN Nat d), goodB d t = true →
    normN d t = (buildC d (leavesN d t),
      computeHashN d (buildC d (leavesN d t))) := by
  intro d
  induction d with
  | zero =>
    intro t hg
    have hg' := (goodB_zero_iff t).mp hg
    rw [normN, pruneN]
    cases hd : t.dirty with
    | false =>
      have hn : isNormalB 0 t = true := by
        rcases hg'.2 with h | h
        · rw [hd] at h; exact Bool.noConfusion h
        · exact h
      have hn' := (isNormalB_zero_iff t).mp hn
      rw [hashPassN_zero_clean t (leafHash t.value t.md) hd hn'.2.1]
      rw [← isNormal_eq_buildC 0 t hn]
      rfl
    | true =>
      rw [hashPassN_zero_dirty t hd]
      cases hv : t.value with
      | none =>
        have hmd : t.md = 0 := by rw [hg'.1, hv]; rfl
        have hl : leavesN 0 t = [] := by rw [leavesN, hv]
        rw [hl, hmd]
        rfl
      | some v =>
        have hmd : t.md = 1 := by rw [hg'.1, hv]; rfl
        have hl : leavesN 0 t = [([], v)] := by rw [leavesN, hv]
        rw [hl, hmd]
        rfl
  | succ d ih =>
    intro t hg
    have hg' := (goodB_succ_iff d t).mp hg
    cases hd : t.dirty with
    | false =>
      have hn : isNormalB (d + 1) t = true := by
        rcases hg'.2.2.2.2 with h | h
        · rw [hd] at h; exact Bool.noConfusion h
        · exact h
      have hn' := (isNormalB_succ_iff d t).mp hn
      rw [normN, prune_isNormal (d + 1) t hn]
      rw [hashPassN_succ_clean d t (computeHashN (d + 1) t) hd hn'.2.1]
      rw [← isNormal_eq_buildC (d + 1) t hn]
    | true =>
      have hmd : t.md = (leavesF d t.children).length := by
        rw [hg'.2.2.1, leavesN_succ]
      have hpc : (pruneN (d + 1) t).children
          = t.children.filterMap (fun bc =>
              if isEmptyB d (pruneN d bc.2) then none
              else some (bc.1, pruneN d bc.2)) := rfl
      have hpm : (pruneN (d + 1) t).md = t.md := rfl
      rw [normN]
      rw [hashPassN_succ_dirty d (pruneN (d + 1) t) hd]
      rw [hpc, hpm]
      rw [hashPass_prune_children d ih t.children hg'.2.2.2.1]
      rw [filterMap_pair_fst d t.children]
      rw [filterMap_pair_snd d t.children]
      rw [leavesN_succ]
      rw [computeHash_buildC_succ d (leavesF d t.children)]
      rw [buildC_succ d (leavesF d t.children)]
      rw [buildC_children_eq d t.children hg'.1 hg'.2.1]
      rw [hmd]

theorem leavesF_hashPass (d : Nat)
    (hih : ∀ c : TrieN Nat d, leavesN d (hashPassN d c).1 = leavesN d c) :
    ∀ ch : List (Nat × TrieN Nat d),
      leavesF d ((ch.map (fun bc => (bc.1, hashPassN d bc.2))).map (fun x => (x.1, x.2.1)))
        = leavesF d ch := by
  intro ch
  induction ch with
  | nil => rfl
  | cons bc ch ihc =>
    rw [List.map_cons, List.map_cons, leavesF_cons, leavesF_cons, ihc]
    show shiftKV bc.1 (leavesN d (hashPassN d bc.2).1) ++ _ = _
    rw [hih bc.2]

theorem hashPass_leaves : ∀ (d : Nat) (t : TrieN Nat d),
    leavesN d (hashPassN d t).1 = leavesN d t := by
  intro d
  induction d with
  | zero =>
    intro t
    obtain ⟨v, m, dr, ca⟩ := t
    cases dr with
    | true => rfl
    | false =>
      cases ca with
      | none => rfl
      | some h => rfl
  | succ d ih =>
    intro t
    cases hd : t.dirty with
    | true =>
      rw [hashPassN_succ_dirty d t hd, leavesN_succ, leavesN_succ]
      exact leavesF_hashPass d ih t.children
    | false =>
      cases hc : t.cached with
      | some h => rw [hashPassN_succ_clean d t h hd hc]
      | none =>
        obtain ⟨ch, m, dr, ca⟩ := t
        cases dr with
        | true => exact Bool.noConfusion hd
        | false =>
          cases ca with
          | some h0 => exact Option.noConfusion hc
          | none =>
            show leavesN (d + 1)
              (hashPassN (d + 1) (⟨ch, m, false, none⟩ : NodeF (TrieN Nat d))).1 = _
            rw [show hashPassN (d + 1) (⟨ch, m, false, none⟩ : NodeF (TrieN Nat d))
                = (⟨(ch.map (fun bc => (bc.1, hashPassN d bc.2))).map (fun x => (x.1, x.2.1)),
                    m, false,
                    some (nodeHash
                      (bitmapOf ((ch.map (fun bc => (bc.1, hashPassN d bc.2))).map
                        (fun x => (x.1, x.2.1))))
                      ((ch.map (fun bc => (bc.1, hashPassN d bc.2))).map (fun x => x.2.2)))⟩,
                  nodeHash
                    (bitmapOf ((ch.map (fun bc => (bc.1, hashPassN d bc.2))).map
                      (fun x => (x.1, x.2.1))))
                    ((ch.map (fun bc => (bc.1, hashPassN d bc.2))).map (fun x => x.2.2)))
              from rfl]
            rw [leavesN_succ, leavesN_succ]
            exact leavesF_hashPass d ih ch

theorem norm_leaves (d : Nat) (t : TrieN Nat d) :
    leavesN d (normN d t).1 = leavesN d t := by
  rw [normN, hashPass_leaves, prune_leaves]

theorem hashPass_empty : ∀ (d : Nat) (t : TrieN Nat d),
    isEmptyB d (hashPassN d t).1 = isEmptyB d t := by
  intro d
  cases d with
  | zero =>
    intro t
    obtain ⟨v, m, dr, ca⟩ := t
    cases dr with
    | true => rfl
    | false =>
      cases ca with
      | none => rfl
      | some h => rfl
  | succ d =>
    intro t
    obtain ⟨ch, m, dr, ca⟩ := t
    cases dr with
    | true =>
      cases ch with
      | nil => rfl
      | cons bc ch2 => rfl
    | false =>
      cases ca with
      | some h => rfl
      | none =>
        cases ch with
        | nil => rfl
        | cons bc ch2 => rfl

theorem buildC_dirty : ∀ (d : Nat) (l : List KV), dirtyN d (buildC d l) = false := by
  intro d l
  cases d with
  | zero =>
    cases l with
    | nil => rfl
    | cons kv l2 => rfl
  | succ d => rfl

theorem buildC_md : ∀ (d : Nat) (l : List KV), mdN d (buildC d l) = l.length := by
  intro d l
  cases d with
  | zero =>
    cases l with
    | nil => rfl
    | cons kv l2 => rfl
  | succ d => rfl

theorem buildC_cached : ∀ (d : Nat) (l : List KV),
    cachedN d (buildC d l) = some (computeHashN d (buildC d l)) := by
  intro d l
  cases d with
  | zero =>
    cases l with
    | nil => rfl
    | cons kv l2 => rfl
  | succ d => rfl

theorem buildC_children (d : Nat) (l : List KV) :
    (buildC (d + 1) l).children = (List.range 16).filterMap (fun b =>
      if (groupB b l).isEmpty then none else some (b, buildC d (groupB b l))) := rfl

theorem map_fst_filterMap_range {β : Type} (p : Nat → Bool) (g : Nat → β) :
    ∀ L : List Nat,
      ((L.filterMap (fun b => if p b then none else some (b, g b))).map (fun bc => bc.1))
        = L.filter (fun b => !p b) := by
  intro L
  induction L with
  | nil => rfl
  | cons a L ih =>
    by_cases hp : p a = true
    · rw [List.filterMap_cons_none (by rw [if_pos hp]),
        List.filter_cons_of_neg (by simp [hp]), ih]
    · rw [List.filterMap_cons_some (by rw [if_neg hp]), List.map_cons,
        List.filter_cons_of_pos (by simp [Bool.not_eq_true] at hp ⊢; exact hp), ih]

theorem buildC_children_facts (d : Nat) (l : List KV) :
    List.Pairwise (· < ·) ((buildC (d + 1) l).children.map (fun bc => bc.1))
    ∧ ∀ b ∈ (buildC (d + 1) l).children.map (fun bc => bc.1), b < 16 := by
  have hch : (buildC (d + 1) l).children.map (fun bc => bc.1)
      = (List.range 16).filter (fun b => !((groupB b l).isEmpty)) := by
    rw [buildC_children]
    exact map_fst_filterMap_range (fun b => (groupB b l).isEmpty)
      (fun b => buildC d (groupB b l)) (List.range 16)
  rw [hch]
  constructor
  · exact List.Pairwise.filter _ (List.pairwise_lt_range 16)
  · intro b hb
    exact List.mem_range.mp (List.mem_filter.mp hb).1

/-- Normalization of any good state produces a fully normalized node. -/
theorem norm_isNormal : ∀ (d : Nat) (t : TrieN Nat d),
    goodB d t = true → isNormalB d (normN d t).1 = true := by
  intro d
  induction d with
  | zero =>
    intro t hg
    rw [normN_good 0 t hg]
    rw [isNormalB_zero_iff]
    refine ⟨buildC_dirty 0 (leavesN 0 t), buildC_cached 0 (leavesN 0 t), ?_⟩
    cases hv : t.value with
    | none =>
      have hl : leavesN 0 t = [] := by rw [leavesN, hv]
      rw [hl]
      rfl
    | some v =>
      have hl : leavesN 0 t = [([], v)] := by rw [leavesN, hv]
      rw [hl]
      rfl
  | succ d ih =>
    intro t hg
    have hg' := (goodB_succ_iff d t).mp hg
    have hno := normN_good (d + 1) t hg
    rw [isNormalB_succ_iff]
    have hcc : (buildC (d + 1) (leavesN (d + 1) t)).children
        = t.children.filterMap (fun bc =>
            if (leavesN d bc.2).isEmpty then none
            else some (bc.1, buildC d (leavesN d bc.2))) := by
      rw [buildC_children, leavesN_succ,
        buildC_children_eq d t.children hg'.1 hg'.2.1]
    refine ⟨?_, ?_, ?_, ?_, ?_, ?_⟩
    · rw [hno]
      exact buildC_dirty (d + 1) (leavesN (d + 1) t)
    · rw [hno]
      exact buildC_cached (d + 1) (leavesN (d + 1) t)
    · rw [hno]
      exact (buildC_children_facts d (leavesN (d + 1) t)).1
    · rw [hno]
      exact (buildC_children_facts d (leavesN (d + 1) t)).2
    · rw [norm_leaves, hno]
      exact buildC_md (d + 1) (leavesN (d + 1) t)
    · intro bc hbc
      rw [hno] at hbc
      rw [hcc] at hbc
      obtain ⟨bc0, hbc0, hsome⟩ := List.mem_filterMap.mp hbc
      by_cases hce : (leavesN d bc0.2).isEmpty = true
      · rw [if_pos hce] at hsome
        cases hsome
      · rw [if_neg hce] at hsome
        have heq := Option.some.inj hsome
        subst heq
        have hgood0 : goodB d bc0.2 = true := hg'.2.2.2.1 bc0 hbc0
        have hb := normN_good d bc0.2 hgood0
        constructor
        · have hni := ih bc0.2 hgood0
          rw [hb] at hni
          exact hni
        · have hne : leavesN d bc0.2 ≠ [] := fun h0 => hce (by rw [h0]; rfl)
          have hemp : isEmptyB d (normN d bc0.2).1 = isEmptyB d (pruneN d bc0.2) := by
            rw [normN, hashPass_empty]
          have hres : isEmptyB d (normN d bc0.2).1 = false := by
            rw [hemp]
            cases hx : isEmptyB d (pruneN d bc0.2) with
            | false => rfl
            | true => exact absurd ((prune_empty_iff d bc0.2).mp hx) hne
          rw [hb] at hres
          exact hres

/-- A fully normalized node is a fixed point of `hash_and_normalize`,
which recomputes nothing and just reads the cached hash. -/
theorem normN_fix : ∀ (d : Nat) (t : TrieN Nat d), isNormalB d t = true →
    normN d t = (t, computeHashN d t) := by
  intro d t hn
  rw [normN, prune_isNormal d t hn]
  cases d with
  | zero =>
    have hn' := (isNormalB_zero_iff t).mp hn
    rw [hashPassN_zero_clean t (leafHash t.value t.md) hn'.1 hn'.2.1]
    rfl
  | succ d =>
    have hn' := (isNormalB_succ_iff d t).mp hn
    rw [hashPassN_succ_clean d t (computeHashN (d + 1) t) hn'.1 hn'.2.1]

/-- Determinism: any two good states with the same key/value content
normalize to the identical node and root hash. -/
theorem norm_determinism (d : Nat) (t1 t2 : TrieN Nat d)
    (h1 : goodB d t1 = true) (h2 : goodB d t2 = true)
    (hl : leavesN d t1 = leavesN d t2) :
    normN d t1 = normN d t2 := by
  rw [normN_good d t1 h1, normN_good d t2 h2, hl]

/-! ### Claim C3: idempotent `hash_and_normalize` -/

/-- C3: two consecutive `hash_and_normalize` calls on the same reachable
(good) trie with no mutation in between return the same normalized trie
and the same root hash, and the first call clears every dirty flag in
the tree, so the second call is the no-recomputation cached-hash fast
path. -/
theorem hash_and_normalize_idempotent (d : Nat) (t : TrieN Nat d)
    (hg : goodB d t = true) :
    normN d (normN d t).1 = normN d t ∧ noDirtyB d (normN d t).1 = true := by
  have hn := norm_isNormal d t hg
  constructor
  · rw [normN_fix d (normN d t).1 hn, normN_good d t hg]
  · exact isNormal_noDirty d (normN d t).1 hn

/-- C3 witness: a depth-2 trie holding one inserted key. -/
theorem hash_and_normalize_idempotent_witness :
    goodB 2 (insN 2 [3, 5] 42 (emptyN 2)).1 = true ∧
    (normN 2 (normN 2 (insN 2 [3, 5] 42 (emptyN 2)).1).1
        = normN 2 (insN 2 [3, 5] 42 (emptyN 2)).1 ∧
      noDirtyB 2 (normN 2 (insN 2 [3, 5] 42 (emptyN 2)).1).1 = true) :=
  ⟨by decide, hash_and_normalize_idempotent 2 (insN 2 [3, 5] 42 (emptyN 2)).1 (by decide)⟩

/-! ### Claim C7: get-or-create without inserts normalizes to empty -/

/-- C7: a trie whose nodes were materialized only through
`get_subnode_ref_and_invalidate_hash` calls (no value ever inserted)
normalizes — all the empty non-root nodes are pruned — to exactly the
normalized fresh empty trie, with the same root hash. -/
theorem getsub_only_normalizes_empty (d : Nat) (ps : List (List Nat))
    (hps : ∀ p ∈ ps, okNibs p = true ∧ p.length ≤ d) :
    normN d (ps.foldl (fun t p => getSubN d p t) (emptyN d)) = normN d (emptyN d) := by
  have key : ∀ (qs : List (List Nat)) (t : TrieN Nat d),
      goodB d t = true → (∀ p ∈ qs, okNibs p = true ∧ p.length ≤ d) →
      goodB d (qs.foldl (fun t p => getSubN d p t) t) = true ∧
      leavesN d (qs.foldl (fun t p => getSubN d p t) t) = leavesN d t := by
    intro qs
    induction qs with
    | nil =>
      intro t hg _
      exact ⟨hg, rfl⟩
    | cons p qs ih =>
      intro t hg hv
      have hp := hv p (List.mem_cons_self _ _)
      have hspec := getSubN_spec d p t hg hp.1 hp.2
      rw [List.foldl_cons]
      have hrec := ih (getSubN d p t) hspec.2
        (fun q hq => hv q (List.mem_cons_of_mem _ hq))
      exact ⟨hrec.1, by rw [hrec.2, hspec.1]⟩
  have hk := key ps (emptyN d) (goodB_emptyN d) hps
  exact norm_determinism d _ _ hk.1 (goodB_emptyN d) (by rw [hk.2])

/-- C7 witness: two get-or-create calls at depth 2, no inserts. -/
theorem getsub_only_normalizes_empty_witness :
    (∀ p ∈ [[5], [3, 7]], okNibs p = true ∧ p.length ≤ 2) ∧
    normN 2 ([[5], [3, 7]].foldl (fun t p => getSubN 2 p t) (emptyN 2))
      = normN 2 (emptyN 2) :=
  ⟨by decide, getsub_only_normalizes_empty 2 [[5], [3, 7]] (by decide)⟩

/-! ### Claim C1: merge equivalence -/

/-- C1: merging a serial trie into a main trie and then normalizing
yields exactly the same normalized state and root hash as performing
the serial trie's inserts (its key/value pairs, in ascending key order)
directly against the main trie with the overwrite-insert strategy and
then normalizing. -/
theorem merge_equals_serial_inserts (d : Nat) (main serial : TrieN Nat d)
    (hm : goodB d main = true) (hs : goodB d serial = true) :
    normN d (mergeN d main serial).1
      = normN d ((leavesN d serial).foldl (fun t kv => (insN d kv.1 kv.2 t).1) main) := by
  have key : ∀ (S : List KV) (t : TrieN Nat d),
      goodB d t = true → (∀ kv ∈ S, okKey d kv.1 = true) →
      leavesN d (S.foldl (fun t kv => (insN d kv.1 kv.2 t).1) t)
          = unionL (leavesN d t) S ∧
      goodB d (S.foldl (fun t kv => (insN d kv.1 kv.2 t).1) t) = true := by
    intro S
    induction S with
    | nil =>
      intro t hg _
      exact ⟨rfl, hg⟩
    | cons kv S ih =>
      intro t hg hks
      have hspec := insN_spec d kv.1 kv.2 t hg (hks kv (List.mem_cons_self _ _))
      rw [List.foldl_cons]
      have hrec := ih (insN d kv.1 kv.2 t).1 hspec.2.1
        (fun q hq => hks q (List.mem_cons_of_mem _ hq))
      refine ⟨?_, hrec.2⟩
      rw [hrec.1, hspec.1, unionL_cons]
  have hfold := key (leavesN d serial) main hm (good_keys_ok d serial hs)
  have hmg := mergeN_spec d main serial hm hs
  exact norm_determinism d _ _ hmg.2.1 hfold.2 (by rw [hmg.1, hfold.1])

/-- C1 witness: depth-2 main trie with two keys, serial trie with two
keys (one colliding with the main trie). -/
theorem merge_equals_serial_inserts_witness :
    goodB 2 (insN 2 [3, 4] 20 (insN 2 [1, 2] 10 (emptyN 2)).1).1 = true ∧
    goodB 2 (insN 2 [5, 6] 7 (insN 2 [1, 2] 99 (emptyN 2)).1).1 = true ∧
    normN 2 (mergeN 2 (insN 2 [3, 4] 20 (insN 2 [1, 2] 10 (emptyN 2)).1).1
        (insN 2 [5, 6] 7 (insN 2 [1, 2] 99 (emptyN 2)).1).1).1
      = normN 2 ((leavesN 2 (insN 2 [5, 6] 7 (insN 2 [1, 2] 99 (emptyN 2)).1).1).foldl
          (fun t kv => (insN 2 kv.1 kv.2 t).1)
          (insN 2 [3, 4] 20 (insN 2 [1, 2] 10 (emptyN 2)).1).1) :=
  ⟨by decide, by decide,
    merge_equals_serial_inserts 2
      (insN 2 [3, 4] 20 (insN 2 [1, 2] 10 (emptyN 2)).1).1
      (insN 2 [5, 6] 7 (insN 2 [1, 2] 99 (emptyN 2)).1).1
      (by decide) (by decide)⟩

/-! ### Claim C4: insert/delete round trip under unrelated interleavings -/

theorem eraseK_comm (K1 K2 : List Nat) (l : List KV) :
    eraseK K1 (eraseK K2 l) = eraseK K2 (eraseK K1 l) := by
  rw [eraseK, eraseK, eraseK, eraseK, List.filter_filter, List.filter_filter]
  congr 1
  funext p
  exact Bool.and_comm _ _

/-- Modelled from the spec: one interleaved operation against the trie —
an overwrite insert, a delete, or a
`get_subnode_ref_and_invalidate_hash` call. -/
inductive OpT where
  | insOp : List Nat → Nat → OpT
  | delOp : List Nat → OpT
  | subOp : List Nat → OpT
deriving DecidableEq

/-- Apply one interleaved operation to the trie state. -/
def applyOp (d : Nat) (t : TrieN Nat d) : OpT → TrieN Nat d
  | OpT.insOp k v => (insN d k v t).1
  | OpT.delOp k => (delN d k t).1
  | OpT.subOp p => getSubN d p t

/-- Apply a sequence of interleaved operations in order. -/
def applyOps (d : Nat) (ops : List OpT) (t : TrieN Nat d) : TrieN Nat d :=
  ops.foldl (applyOp d) t

/-- An operation is unrelated to key `K`: it is well formed for depth
`d` and touches only keys different from `K`. -/
def opOkB (d : Nat) (K : List Nat) : OpT → Bool
  | OpT.insOp k _ => okKey d k && decide (k ≠ K)
  | OpT.delOp k => okKey d k && decide (k ≠ K)
  | OpT.subOp p => okNibs p && decide (p.length ≤ d)

theorem applyOps_cons (d : Nat) (op : OpT) (ops : List OpT) (t : TrieN Nat d) :
    applyOps d (op :: ops) t = applyOps d ops (applyOp d t op) := rfl

/-- C4: inserting an absent key `K` and later deleting `K` restores the
pre-insert normalized state and root hash, for every interleaving of
operations on unrelated keys placed between the insert and the
delete. -/
theorem insert_delete_round_trip (d : Nat) (K : List Nat) (v : Nat)
    (t : TrieN Nat d) (ops : List OpT)
    (hg : goodB d t = true) (hK : okKey d K = true)
    (hnotin : K ∉ (leavesN d t).map (fun kv => kv.1))
    (hops : ∀ op ∈ ops, opOkB d K op = true) :
    normN d (delN d K (applyOps d ops (insN d K v t).1)).1
      = normN d (applyOps d ops t) := by
  have key : ∀ (ops : List OpT) (s1 s2 : TrieN Nat d),
      goodB d s1 = true → goodB d s2 = true →
      (∀ op ∈ ops, opOkB d K op = true) →
      eraseK K (leavesN d s1) = leavesN d s2 →
      goodB d (applyOps d ops s1) = true ∧
      goodB d (applyOps d ops s2) = true ∧
      eraseK K (leavesN d (applyOps d ops s1)) = leavesN d (applyOps d ops s2) := by
    intro ops
    induction ops with
    | nil =>
      intro s1 s2 h1 h2 _ he
      exact ⟨h1, h2, he⟩
    | cons op ops ih =>
      intro s1 s2 h1 h2 hv he
      have hop := hv op (List.mem_cons_self _ _)
      have hrest := fun q hq => hv q (List.mem_cons_of_mem _ hq)
      rw [applyOps_cons, applyOps_cons]
      cases op with
      | insOp k w =>
        have hok : okKey d k = true ∧ k ≠ K := by
          rw [opOkB] at hop
          simpa using hop
        have hs1 := insN_spec d k w s1 h1 hok.1
        have hs2 := insN_spec d k w s2 h2 hok.1
        refine ih _ _ hs1.2.1 hs2.2.1 hrest ?_
        show eraseK K (leavesN d (insN d k w s1).1) = leavesN d (insN d k w s2).1
        rw [hs1.1, hs2.1, eraseK_insS_comm K k w hok.2 _ (good_sorted d s1 h1), he]
      | delOp k =>
        have hok : okKey d k = true ∧ k ≠ K := by
          rw [opOkB] at hop
          simpa using hop
        have hs1 := delN_spec d k s1 h1 hok.1
        have hs2 := delN_spec d k s2 h2 hok.1
        refine ih _ _ hs1.2.1 hs2.2.1 hrest ?_
        show eraseK K (leavesN d (delN d k s1).1) = leavesN d (delN d k s2).1
        rw [hs1.1, hs2.1, eraseK_comm K k, he]
      | subOp p =>
        have hok : okNibs p = true ∧ p.length ≤ d := by
          rw [opOkB] at hop
          simpa using hop
        have hs1 := getSubN_spec d p s1 h1 hok.1 hok.2
        have hs2 := getSubN_spec d p s2 h2 hok.1 hok.2
        refine ih _ _ hs1.2 hs2.2 hrest ?_
        show eraseK K (leavesN d (getSubN d p s1)) = leavesN d (getSubN d p s2)
        rw [hs1.1, hs2.1, he]
  have hins := insN_spec d K v t hg hK
  have hbase : eraseK K (leavesN d (insN d K v t).1) = leavesN d t := by
    rw [hins.1, eraseK_insS_self, eraseK_eq_self K _ hnotin]
  have hk := key ops (insN d K v t).1 t hins.2.1 hg hops hbase
  have hdel := delN_spec d K (applyOps d ops (insN d K v t).1) hk.1 hK
  exact norm_determinism d _ _ hdel.2.1 hk.2.1 (by rw [hdel.1, hk.2.2])

/-- C4 witness: depth 2, key `[7, 8]` inserted then deleted around an
interleaved unrelated insert, get-or-create, and delete. -/
theorem insert_delete_round_trip_witness :
    (goodB 2 (insN 2 [1, 1] 3 (emptyN 2)).1 = true ∧
      okKey 2 [7, 8] = true ∧
      [7, 8] ∉ (leavesN 2 (insN 2 [1, 1] 3 (emptyN 2)).1).map (fun kv => kv.1) ∧
      (∀ op ∈ [OpT.insOp [2, 2] 4, OpT.subOp [7], OpT.delOp [1, 1]],
        opOkB 2 [7, 8] op = true)) ∧
    normN 2 (delN 2 [7, 8]
        (applyOps 2 [OpT.insOp [2, 2] 4, OpT.subOp [7], OpT.delOp [1, 1]]
          (insN 2 [7, 8] 5 (insN 2 [1, 1] 3 (emptyN 2)).1).1)).1
      = normN 2 (applyOps 2 [OpT.insOp [2, 2] 4, OpT.subOp [7], OpT.delOp [1, 1]]
          (insN 2 [1, 1] 3 (emptyN 2)).1) :=
  ⟨⟨by decide, by decide, by decide, by decide⟩,
    insert_delete_round_trip 2 [7, 8] 5 (insN 2 [1, 1] 3 (emptyN 2)).1
      [OpT.insOp [2, 2] 4, OpT.subOp [7], OpT.delOp [1, 1]]
      (by decide) (by decide) (by decide) (by decide)⟩

/-! ### Claim C5: get-or-create stability and installation -/

theorem getA_setA_same {α : Type} (b : Nat) (c : α) :
    ∀ l : List (Nat × α), getA b (setA b c l) = some c := by
  intro l
  induction l with
  | nil => rw [setA, getA, if_pos rfl]
  | cons x l ih =>
    rw [setA]
    by_cases h1 : b < x.1
    · rw [if_pos h1, getA, if_pos rfl]
    · rw [if_neg h1]
      by_cases h2 : b = x.1
      · rw [if_pos h2, getA, if_pos rfl]
      · rw [if_neg h2, getA, if_neg (fun he => h2 he.symm), ih]

theorem setA_setA {α : Type} (b : Nat) (c1 c2 : α) :
    ∀ l : List (Nat × α), setA b c2 (setA b c1 l) = setA b c2 l := by
  intro l
  induction l with
  | nil =>
    rw [setA, setA, setA, if_neg (Nat.lt_irrefl b), if_pos rfl]
  | cons x l ih =>
    by_cases h1 : b < x.1
    · rw [setA, if_pos h1, setA, if_neg (Nat.lt_irrefl b), if_pos rfl,
        setA, if_pos h1]
    · rw [setA, if_neg h1]
      by_cases h2 : b = x.1
      · rw [if_pos h2, setA, if_neg (Nat.lt_irrefl b), if_pos rfl,
          setA, if_neg h1, if_pos h2]
      · rw [if_neg h2, setA, if_neg h1, if_neg h2, ih,
          setA, if_neg h1, if_neg h2]

theorem getSubN_succ_cons (d : Nat) (b : Nat) (r : List Nat) (t : TrieN Nat (d + 1)) :
    getSubN (d + 1) (b :: r) t
      = ⟨setA b (getSubN d r ((getA b t.children).getD (emptyN d))) t.children,
          t.md, true, t.cached⟩ := rfl

theorem getSubN_idem : ∀ (d : Nat) (p : List Nat) (t : TrieN Nat d),
    getSubN d p (getSubN d p t) = getSubN d p t := by
  intro d
  induction d with
  | zero => intro p t; rfl
  | succ d ih =>
    intro p t
    cases p with
    | nil => rfl
    | cons b r =>
      rw [getSubN_succ_cons d b r t]
      rw [getSubN_succ_cons]
      dsimp only
      rw [getA_setA_same, Option.getD_some,
        ih r ((getA b t.children).getD (emptyN d)), setA_setA]

theorem plookup_getSubN : ∀ (d : Nat) (p : List Nat) (t : TrieN Nat d),
    p.length ≤ d → (plookup p ⟨d, getSubN d p t⟩).isSome = true := by
  intro d
  induction d with
  | zero =>
    intro p t hlen
    have hp : p = [] := List.eq_nil_of_length_eq_zero (Nat.le_zero.mp hlen)
    subst hp
    rfl
  | succ d ih =>
    intro p t hlen
    cases p with
    | nil => rfl
    | cons b r =>
      have hstep : plookup (b :: r) ⟨d + 1, getSubN (d + 1) (b :: r) t⟩
          = plookup r ⟨d, getSubN d r ((getA b t.children).getD (emptyN d))⟩ := by
        rw [getSubN_succ_cons, plookup, childOf]
        dsimp only
        rw [getA_setA_same]
        rfl
      rw [hstep]
      exact ih r _ (by rw [List.length_cons] at hlen; omega)

/-- C5: `get_subnode_ref_and_invalidate_hash` is get-or-create with a
stable result: repeating the call with identical arguments leaves the
trie unchanged, so successive calls resolve to one and the same node
(equal references), and that node is installed below its ancestors —
the requested path resolves to it through the child links of the
resulting trie. -/
theorem get_subnode_ref_stable (d : Nat) (p : List Nat) (t : TrieN Nat d)
    (hlen : p.length ≤ d) :
    getSubN d p (getSubN d p t) = getSubN d p t ∧
    plookup p ⟨d, getSubN d p t⟩ = plookup p ⟨d, getSubN d p (getSubN d p t)⟩ ∧
    (plookup p ⟨d, getSubN d p t⟩).isSome = true :=
  ⟨getSubN_idem d p t, by rw [getSubN_idem d p t], plookup_getSubN d p t hlen⟩

/-- C5 witness: a depth-2 trie with one key, get-or-create at path `[7, 3]`. -/
theorem get_subnode_ref_stable_witness :
    ([7, 3] : List Nat).length ≤ 2 ∧
    (getSubN 2 [7, 3] (getSubN 2 [7, 3] (insN 2 [1, 2] 9 (emptyN 2)).1)
        = getSubN 2 [7, 3] (insN 2 [1, 2] 9 (emptyN 2)).1 ∧
      plookup [7, 3] ⟨2, getSubN 2 [7, 3] (insN 2 [1, 2] 9 (emptyN 2)).1⟩
        = plookup [7, 3] ⟨2, getSubN 2 [7, 3] (getSubN 2 [7, 3] (insN 2 [1, 2] 9 (emptyN 2)).1)⟩ ∧
      (plookup [7, 3] ⟨2, getSubN 2 [7, 3] (insN 2 [1, 2] 9 (emptyN 2)).1⟩).isSome = true) :=
  ⟨by decide, get_subnode_ref_stable 2 [7, 3] (insN 2 [1, 2] 9 (emptyN 2)).1 (by decide)⟩

/-! ### Claim C2: the 1000-key accumulate scenario -/

/-- MSB-first nibble decomposition of a key, `w` nibbles wide. -/
def toNibs : Nat → Nat → List Nat
  | 0, _ => []
  | w + 1, n => (n / 16 ^ w) % 16 :: toNibs w n

/-- Numeric value of an MSB-first nibble string. -/
def fromNibs : List Nat → Nat
  | [] => 0
  | a :: r => a * 16 ^ r.length + fromNibs r

theorem toNibs_length : ∀ (w n : Nat), (toNibs w n).length = w := by
  intro w
  induction w with
  | zero => intro n; rfl
  | succ w ih =>
    intro n
    rw [toNibs, List.length_cons, ih]

theorem toNibs_okNibs : ∀ (w n : Nat), okNibs (toNibs w n) = true := by
  intro w
  induction w with
  | zero => intro n; rfl
  | succ w ih =>
    intro n
    rw [toNibs, okNibs, List.all_cons]
    have ih2 : ((toNibs w n).all fun x => decide (x < 16)) = true := ih n
    rw [ih2]
    simp [Nat.mod_lt _ (by omega : (0 : Nat) < 16)]

theorem fromNibs_toNibs : ∀ (w n : Nat), fromNibs (toNibs w n) = n % 16 ^ w := by
  intro w
  induction w with
  | zero =>
    intro n
    rw [toNibs, fromNibs, Nat.pow_zero, Nat.mod_one]
  | succ w ih =>
    intro n
    rw [toNibs, fromNibs, ih n, toNibs_length, Nat.pow_succ, Nat.mod_mul, Nat.mul_comm]
    omega

theorem toNibs_inj (w a b : Nat) (ha : a < 16 ^ w) (hb : b < 16 ^ w)
    (h : toNibs w a = toNibs w b) : a = b := by
  have := congrArg fromNibs h
  rw [fromNibs_toNibs, fromNibs_toNibs, Nat.mod_eq_of_lt ha, Nat.mod_eq_of_lt hb] at this
  exact this

/-- Modelled from the spec: an accumulation strategy — `accumulate`
writes a value at a vector offset, `size_increment` maps a subtree's
metadata size to the offset advance, `vector_size` maps the root
metadata size to the allocated length. -/
structure AccFn where
  write : List Nat → Nat → Nat → List Nat
  incr : Nat → Nat
  vecSize : Nat → Nat

/-- Modelled from the spec: `accumulate_values_parallel` — allocate a
vector of `vector_size(root_metadata)` slots, then visit the leaves in
ascending key order, calling `accumulate` at the running offset and
advancing the offset by `size_increment(leaf metadata)`; the metadata
size of a single leaf is 1. -/
def accValues (F : AccFn) (leaves : List KV) (rootMd : Nat) : List Nat :=
  (leaves.foldl (fun (acc : List Nat × Nat) kv =>
      (F.write acc.1 acc.2 kv.2, acc.2 + F.incr 1))
    (List.replicate (F.vecSize rootMd) 0, 0)).1

/-- The default `AccumulateValuesFn`: writes the value into one slot. -/
def idAcc : AccFn :=
  ⟨fun vec off v => vec.set off v, fun m => m, fun m => m⟩

/-- `DoubleAccumulateValuesFn` from the test: writes the value into two
adjacent slots, doubling sizes and increments. -/
def dblAcc : AccFn :=
  ⟨fun vec off v => (vec.set off v).set (off + 1) v, fun m => 2 * m, fun m => 2 * m⟩

/-- Write the values one after another starting at an offset. -/
def writeSeq (vec : List Nat) (off : Nat) : List Nat → List Nat
  | [] => vec
  | v :: vs => writeSeq (vec.set off v) (off + 1) vs

theorem writeSeq_cons_shift : ∀ (vs : List Nat) (x : Nat) (vec : List Nat) (off : Nat),
    writeSeq (x :: vec) (off + 1) vs = x :: writeSeq vec off vs := by
  intro vs
  induction vs with
  | nil => intro x vec off; rfl
  | cons v vs ih =>
    intro x vec off
    rw [writeSeq, List.set_cons_succ]
    rw [writeSeq]
    exact ih x (vec.set off v) (off + 1)

theorem writeSeq_replicate : ∀ vs : List Nat,
    writeSeq (List.replicate vs.length 0) 0 vs = vs := by
  intro vs
  induction vs with
  | nil => rfl
  | cons v vs ih =>
    rw [List.length_cons, List.replicate_succ, writeSeq, List.set_cons_zero]
    rw [writeSeq_cons_shift vs v (List.replicate vs.length 0) 0, ih]

theorem foldl_writeSeq_id : ∀ (L : List KV) (vec : List Nat) (off : Nat),
    (L.foldl (fun (acc : List Nat × Nat) kv => (acc.1.set acc.2 kv.2, acc.2 + 1))
        (vec, off)).1
      = writeSeq vec off (L.map (fun kv => kv.2)) := by
  intro L
  induction L with
  | nil => intro vec off; rfl
  | cons kv L ih =>
    intro vec off
    rw [List.foldl_cons, List.map_cons, writeSeq]
    exact ih (vec.set off kv.2) (off + 1)

theorem foldl_writeSeq_dbl : ∀ (L : List KV) (vec : List Nat) (off : Nat),
    (L.foldl (fun (acc : List Nat × Nat) kv =>
        ((acc.1.set acc.2 kv.2).set (acc.2 + 1) kv.2, acc.2 + 2)) (vec, off)).1
      = writeSeq vec off (L.flatMap (fun kv => [kv.2, kv.2])) := by
  intro L
  induction L with
  | nil => intro vec off; rfl
  | cons kv L ih =>
    intro vec off
    rw [List.foldl_cons, List.flatMap_cons]
    show _ = writeSeq vec off (kv.2 :: kv.2 :: L.flatMap (fun kv => [kv.2, kv.2]))
    rw [writeSeq, writeSeq]
    exact ih ((vec.set off kv.2).set (off + 1) kv.2) (off + 1 + 1)

theorem flatMap_dup_length : ∀ L : List KV,
    (L.flatMap (fun kv => [kv.2, kv.2])).length = 2 * L.length := by
  intro L
  induction L with
  | nil => rfl
  | cons kv L ih =>
    rw [List.flatMap_cons, List.length_append, ih, List.length_cons]
    show 2 + 2 * L.length = 2 * (L.length + 1)
    omega

theorem accValues_id (L : List KV) :
    accValues idAcc L L.length = L.map (fun kv => kv.2) := by
  show (L.foldl (fun (acc : List Nat × Nat) kv => (acc.1.set acc.2 kv.2, acc.2 + 1))
      (List.replicate L.length 0, 0)).1 = _
  rw [foldl_writeSeq_id L (List.replicate L.length 0) 0]
  rw [show L.length = (L.map (fun kv => kv.2)).length from (List.length_map _ _).symm]
  exact writeSeq_replicate _

theorem accValues_dbl (L : List KV) :
    accValues dblAcc L L.length = L.flatMap (fun kv => [kv.2, kv.2]) := by
  show (L.foldl (fun (acc : List Nat × Nat) kv =>
      ((acc.1.set acc.2 kv.2).set (acc.2 + 1) kv.2, acc.2 + 2))
      (List.replicate (2 * L.length) 0, 0)).1 = _
  rw [foldl_writeSeq_dbl L (List.replicate (2 * L.length) 0) 0]
  rw [show 2 * L.length = (L.flatMap (fun kv => [kv.2, kv.2])).length
    from (flatMap_dup_length L).symm]
  exact writeSeq_replicate _

theorem dup_getD : ∀ (L : List KV) (i : Nat), i < L.length →
    (L.flatMap (fun kv => [kv.2, kv.2])).getD (2 * i) 0
        = (L.map (fun kv => kv.2)).getD i 0 ∧
    (L.flatMap (fun kv => [kv.2, kv.2])).getD (2 * i + 1) 0
        = (L.map (fun kv => kv.2)).getD i 0 := by
  intro L
  induction L with
  | nil =>
    intro i hi
    exact absurd hi (by simp)
  | cons kv L ih =>
    intro i hi
    cases i with
    | zero => exact ⟨rfl, rfl⟩
    | succ i =>
      have h2 : 2 * (i + 1) = 2 * i + 1 + 1 := by omega
      rw [List.flatMap_cons, List.map_cons, h2]
      show ((kv.2 :: kv.2 :: L.flatMap (fun kv => [kv.2, kv.2])).getD (2 * i + 1 + 1) 0
          = (kv.2 :: L.map (fun kv => kv.2)).getD (i + 1) 0) ∧
        ((kv.2 :: kv.2 :: L.flatMap (fun kv => [kv.2, kv.2])).getD (2 * i + 1 + 1 + 1) 0
          = (kv.2 :: L.map (fun kv => kv.2)).getD (i + 1) 0)
      rw [List.getD_cons_succ, List.getD_cons_succ, List.getD_cons_succ,
        List.getD_cons_succ, List.getD_cons_succ]
      exact ih i (by rw [List.length_cons] at hi; omega)

theorem unionL_sorted : ∀ (S L : List KV), sortedK L → sortedK (unionL L S) := by
  intro S
  induction S with
  | nil => intro L h; exact h
  | cons kv S ih =>
    intro L h
    rw [unionL_cons]
    exact ih (insS kv.1 kv.2 L) (insS_sorted kv.1 kv.2 L h)

theorem unionL_length_nodup : ∀ (S L : List KV),
    (S.map (fun kv => kv.1)).Nodup →
    (∀ kv ∈ S, kv.1 ∉ L.map (fun q => q.1)) →
    (unionL L S).length = L.length + S.length := by
  intro S
  induction S with
  | nil => intro L _ _; rfl
  | cons kv S ih =>
    intro L hnd hdisj
    rw [unionL_cons]
    rw [List.map_cons, List.nodup_cons] at hnd
    have hnotin : kv.1 ∉ L.map (fun q => q.1) := hdisj kv (List.mem_cons_self _ _)
    have hdisj2 : ∀ q ∈ S, q.1 ∉ (insS kv.1 kv.2 L).map (fun q => q.1) := by
      intro q hq hmem
      rcases keys_insS kv.1 kv.2 L q.1 hmem with heq | hmem2
      · exact hnd.1 (by rw [← heq]; exact List.mem_map_of_mem _ hq)
      · exact hdisj q (List.mem_cons_of_mem _ hq) hmem2
    rw [ih (insS kv.1 kv.2 L) hnd.2 hdisj2,
      length_insS_not_mem kv.1 kv.2 L hnotin, List.length_cons]
    omega

/-- Folding overwrite-inserts refines the sorted-list union, preserving
goodness. -/
theorem foldl_insN_spec (d : Nat) : ∀ (S : List KV) (t : TrieN Nat d),
    goodB d t = true → (∀ kv ∈ S, okKey d kv.1 = true) →
    leavesN d (S.foldl (fun t kv => (insN d kv.1 kv.2 t).1) t)
        = unionL (leavesN d t) S ∧
    goodB d (S.foldl (fun t kv => (insN d kv.1 kv.2 t).1) t) = true := by
  intro S
  induction S with
  | nil =>
    intro t hg _
    exact ⟨rfl, hg⟩
  | cons kv S ih =>
    intro t hg hks
    have hspec := insN_spec d kv.1 kv.2 t hg (hks kv (List.mem_cons_self _ _))
    rw [List.foldl_cons]
    have hrec := ih (insN d kv.1 kv.2 t).1 hspec.2.1
      (fun q hq => hks q (List.mem_cons_of_mem _ hq))
    refine ⟨?_, hrec.2⟩
    rw [hrec.1, hspec.1, unionL_cons]

/-- The 1000 test insertions: key `(i * 1057) % 10000` as 4 nibbles,
value `i`, for `i` in `0..999`. -/
def c2Inserts : List KV :=
  (List.range 1000).map (fun i => (toNibs 4 ((i * 1057) % 10000), i))

/-- The serial trie holding the 1000 insertions. -/
def c2Serial : TrieN Nat 4 :=
  c2Inserts.foldl (fun t kv => (insN 4 kv.1 kv.2 t).1) (emptyN 4)

/-- The main trie: the serial trie merged into a fresh empty trie. -/
def c2Main : TrieN Nat 4 := (mergeN 4 (emptyN 4) c2Serial).1

/-- `accumulate_values` over the main trie, default accumulator. -/
def c2Res : List Nat := accValues idAcc (leavesN 4 c2Main) (mdN 4 c2Main)

/-- `accumulate_values` over the main trie, doubling accumulator. -/
def c2Res2 : List Nat := accValues dblAcc (leavesN 4 c2Main) (mdN 4 c2Main)

theorem c2Inserts_ok : ∀ kv ∈ c2Inserts, okKey 4 kv.1 = true := by
  intro kv hkv
  rw [c2Inserts, List.mem_map] at hkv
  obtain ⟨i, _, rfl⟩ := hkv
  rw [okKey, toNibs_length, toNibs_okNibs]
  rfl

theorem c2Inserts_keys_nodup : (c2Inserts.map (fun kv => kv.1)).Nodup := by
  rw [c2Inserts, List.map_map]
  refine List.Nodup.map_on ?_ (List.nodup_range 1000)
  intro x hx y hy hxy
  have hx' : x < 1000 := List.mem_range.mp hx
  have hy' : y < 1000 := List.mem_range.mp hy
  have hxy' : toNibs 4 ((x * 1057) % 10000) = toNibs 4 ((y * 1057) % 10000) := hxy
  have hxm : (x * 1057) % 10000 < 16 ^ 4 :=
    Nat.lt_trans (Nat.mod_lt _ (by omega)) (by omega)
  have hym : (y * 1057) % 10000 < 16 ^ 4 :=
    Nat.lt_trans (Nat.mod_lt _ (by omega)) (by omega)
  have hmod : (x * 1057) % 10000 = (y * 1057) % 10000 :=
    toNibs_inj 4 _ _ hxm hym hxy'
  have hc : Nat.gcd 10000 1057 = 1 := by decide
  have hcancel : x ≡ y [MOD 10000] :=
    Nat.ModEq.cancel_right_of_coprime hc hmod
  have : x % 10000 = y % 10000 := hcancel
  rw [Nat.mod_eq_of_lt (by omega), Nat.mod_eq_of_lt (by omega)] at this
  exact this

theorem c2Inserts_length : c2Inserts.length = 1000 := by
  rw [c2Inserts, List.length_map, List.length_range]

/-- C2: after inserting the 1000 keys `(i * 1057) % 10000` (value `i`,
`i` in `0..999`) into a serial trie and merging it into an empty main
trie, `accumulate_values` with the default (identity) accumulator
returns exactly the 1000 leaf values in ascending key order, and the
doubling accumulator returns a 2000-element sequence with
`res2[2i] = res2[2i+1] = res[i]` for every `i < 1000`. -/
theorem accumulate_scenario :
    c2Res.length = 1000 ∧
    c2Res2.length = 2000 ∧
    sortedK (leavesN 4 c2Main) ∧
    c2Res = (leavesN 4 c2Main).map (fun kv => kv.2) ∧
    ∀ i : Nat, i < 1000 →
      c2Res2.getD (2 * i) 0 = c2Res.getD i 0 ∧
      c2Res2.getD (2 * i + 1) 0 = c2Res.getD i 0 := by
  have hserial := foldl_insN_spec 4 c2Inserts (emptyN 4) (goodB_emptyN 4) c2Inserts_ok
  have hsergood : goodB 4 c2Serial = true := hserial.2
  have hserleaves : leavesN 4 c2Serial = unionL [] c2Inserts := by
    have h := hserial.1
    rw [leaves_emptyN] at h
    exact h
  have hmerge := mergeN_spec 4 (emptyN 4) c2Serial (goodB_emptyN 4) hsergood
  have hgood : goodB 4 c2Main = true := hmerge.2.1
  have hU_sorted : sortedK (unionL [] c2Inserts) :=
    unionL_sorted c2Inserts [] List.Pairwise.nil
  have hUU : unionL [] (unionL [] c2Inserts) = unionL [] c2Inserts := by
    rw [unionL_append_all (unionL [] c2Inserts) [] hU_sorted
      (fun m hm => absurd hm (List.not_mem_nil m)), List.nil_append]
  have hmainleaves : leavesN 4 c2Main = unionL [] c2Inserts := by
    show leavesN 4 (mergeN 4 (emptyN 4) c2Serial).1 = _
    rw [hmerge.1, leaves_emptyN, hserleaves, hUU]
  have hlen : (leavesN 4 c2Main).length = 1000 := by
    rw [hmainleaves, unionL_length_nodup c2Inserts [] c2Inserts_keys_nodup
      (fun kv _ h => absurd h (List.not_mem_nil _)), c2Inserts_length]
    rfl
  have hmd : mdN 4 c2Main = (leavesN 4 c2Main).length := good_md 4 c2Main hgood
  have hres : c2Res = (leavesN 4 c2Main).map (fun kv => kv.2) := by
    rw [c2Res, hmd, accValues_id]
  have hres2 : c2Res2 = (leavesN 4 c2Main).flatMap (fun kv => [kv.2, kv.2]) := by
    rw [c2Res2, hmd, accValues_dbl]
  refine ⟨?_, ?_, ?_, hres, ?_⟩
  · rw [hres, List.length_map, hlen]
  · rw [hres2, flatMap_dup_length, hlen]
  · rw [hmainleaves]
    exact hU_sorted
  · intro i hi
    have hd := dup_getD (leavesN 4 c2Main) i (by rw [hlen]; exact hi)
    rw [hres, hres2]
    exact hd

end MTT
